import Mathlib

/-!
Verification of the version-resolution and file-mutation engine of the
`versions` CLI (source: `index.ts`).  The JavaScript source is shallowly
embedded: regular-expression operations are translated into explicit
character-list scanners with the exact leftmost / greedy / lazy semantics of
the corresponding JS regexes, JS `Number`/template-string arithmetic becomes
`Nat` arithmetic with decimal rendering, thrown exceptions become
`Except String`, and the filesystem is an association list from paths to
contents.  External runtime collaborators that are not part of the repository
(the TOML parser used only to extract `project.name` for the `uv.lock`
branch) are taken as parameters.
-/

namespace Versions

/-! ## Character classes and basic list utilities -/

/-- The character class `[0-9a-zA-Z-]` used by the semver grammar. -/
def isAlnumHyph (c : Char) : Bool := c.isAlphanum || c = '-'

/-- Auxiliary splitter: returns the segment before the first separator and
the list of remaining segments. -/
def splitChAux (sep : Char) : List Char → List Char × List (List Char)
  | [] => ([], [])
  | c :: rest =>
    let r := splitChAux sep rest
    if c = sep then ([], r.1 :: r.2) else (c :: r.1, r.2)

/-- Split a character list at every occurrence of a separator character
(the list analogue of splitting a string on a single character). -/
def splitCh (sep : Char) (l : List Char) : List (List Char) :=
  (splitChAux sep l).1 :: (splitChAux sep l).2

/-- Join lists with a separator character; inverse of `splitCh`. -/
def joinCh (sep : Char) : List (List Char) → List Char
  | [] => []
  | [x] => x
  | x :: xs => x ++ sep :: joinCh sep xs

/-! ## Decimal digits

JS template interpolation `${Number(m) + 1}` parses a digit run as a number
and renders the successor in decimal.  `digitsToNat` is the parse,
`natDigits` the decimal rendering (fuel-based so that it evaluates by
`decide`/`rfl`). -/

def digitsToNat (l : List Char) : Nat :=
  l.foldl (fun n c => 10 * n + (c.toNat - 48)) 0

/-- One decimal digit character. -/
def digitChar (n : Nat) : Char :=
  match n with
  | 0 => '0' | 1 => '1' | 2 => '2' | 3 => '3' | 4 => '4'
  | 5 => '5' | 6 => '6' | 7 => '7' | 8 => '8' | _ => '9'

def natDigitsF : Nat → Nat → List Char
  | 0, _ => []
  | fuel + 1, n => if n < 10 then [digitChar n] else natDigitsF fuel (n / 10) ++ [digitChar (n % 10)]

/-- Decimal rendering of a natural number, as JS renders integral numbers. -/
def natDigits (n : Nat) : List Char := natDigitsF (n + 1) n

/-! ## The semver grammar (`reSemver`)

`reSemver` is the canonical anchored semver regex
`^(0|[1-9]\d*)\.(0|[1-9]\d*)\.(0|[1-9]\d*)(?:-(pre))?(?:\+(build))?$`.
Because every component is delimited by characters outside its own character
class, the regex is equivalent to the deterministic split-based parser below:
the string is cut at the first `+` (build metadata), the remainder at the
first `-` (prerelease), and the numeric triple and the dot-separated
identifier lists are checked componentwise. -/

/-- `0|[1-9]\d*`: a nonempty digit run without a leading zero (except "0"). -/
def numOk (l : List Char) : Bool :=
  !l.isEmpty && l.all Char.isDigit &&
    (l.length = 1 || !(l.head? = some '0'))

/-- One prerelease identifier: `0|[1-9]\d*|\d*[a-zA-Z-][0-9a-zA-Z-]*`, i.e. a
nonempty run over `[0-9a-zA-Z-]` that either contains a non-digit or is a
number without a leading zero. -/
def preIdOk (l : List Char) : Bool :=
  !l.isEmpty && l.all isAlnumHyph && (!l.all Char.isDigit || numOk l)

/-- One build identifier: `[0-9a-zA-Z-]+` (leading zeros allowed). -/
def buildIdOk (l : List Char) : Bool :=
  !l.isEmpty && l.all isAlnumHyph

/-- A nonempty dot-separated sequence of prerelease identifiers. -/
def preTextOk (l : List Char) : Bool := (splitCh '.' l).all preIdOk

/-- A nonempty dot-separated sequence of build identifiers. -/
def buildTextOk (l : List Char) : Bool := (splitCh '.' l).all buildIdOk

structure SvParts where
  M : List Char
  m : List Char
  p : List Char
  pre : Option (List Char)
  build : Option (List Char)
  deriving Repr, DecidableEq

/-- The optional prerelease section: empty, or `-` followed by dot-separated
prerelease identifiers. -/
def parsePreOpt : List Char → Option (Option (List Char))
  | [] => some none
  | '-' :: preText => if preTextOk preText then some (some preText) else none
  | _ => none

/-- The optional build-metadata section: empty, or `+` followed by
dot-separated build identifiers. -/
def parseBuildOpt : List Char → Option (Option (List Char))
  | [] => some none
  | '+' :: buildText => if buildTextOk buildText then some (some buildText) else none
  | _ => none

/-- Deterministic parser for the anchored semver grammar of `reSemver`
(without the leading-`v` strip of `isSemver`): cut at the first `+`
(the numeric triple and the prerelease section contain no `+`), cut the
remainder at the first `-` (the triple contains no `-`), and check the
components. -/
def parseSemverParts (l : List Char) : Option SvParts :=
  let core := l.takeWhile (fun c => !c = '+')
  let plusRest := l.dropWhile (fun c => !c = '+')
  let tri := core.takeWhile (fun c => !c = '-')
  let dashRest := core.dropWhile (fun c => !c = '-')
  match splitCh '.' tri, parsePreOpt dashRest, parseBuildOpt plusRest with
  | [a, b, c], some pre, some build =>
    if numOk a && numOk b && numOk c then some ⟨a, b, c, pre, build⟩ else none
  | _, _, _ => none

/-- Rendering of a list of identifier segments, each preceded by a dot. -/
def dotsRender : List (List Char) → List Char
  | [] => []
  | x :: xs => '.' :: (x ++ dotsRender xs)

/-- Rendering of the optional prerelease section (`-pre` or nothing). -/
def preRender : Option (List Char) → List Char
  | none => []
  | some pr => '-' :: pr

/-- Rendering of the optional build-metadata section (`+build` or nothing). -/
def buildRender : Option (List Char) → List Char
  | none => []
  | some b => '+' :: b

/-- `str.replace(/^v/, "")`: strip a single leading `v`. -/
def stripLeadV : List Char → List Char
  | 'v' :: rest => rest
  | l => l

/-- `isSemver` from the source: test `reSemver` after stripping one leading `v`. -/
def isSemver (s : String) : Bool := (parseSemverParts (stripLeadV s.toList)).isSome

/-! ## `incrementSemver`

The major/minor/patch branches of the source use an unanchored
`String.replace` with the regexes

  * `reMajorVersion = /([0-9]+)\.[0-9]+\.[0-9]+(.*)/`
  * `reMinorVersion = /([0-9]+\.)([0-9]+)\.[0-9]+(.*)/`
  * `rePatchVersion = /([0-9]+\.[0-9]+\.)([0-9]+)(.*)/`

All three match the same region: at the leftmost position where three
greedy digit runs separated by literal dots occur, extending through `.*`
(everything up to the next newline); only the shape of the capture groups
differs.  `matchTripleAt` performs the anchored match and returns the three
digit runs plus the remaining input; `replaceTripleOnce` performs the
leftmost-match non-global replace, handing the callback the digit runs and
the `.*` group. -/

def matchTripleAt (l : List Char) : Option (List Char × List Char × List Char × List Char) :=
  let s1 := l.span Char.isDigit
  if s1.1.isEmpty then none else
  match s1.2 with
  | '.' :: l2 =>
    let s2 := l2.span Char.isDigit
    if s2.1.isEmpty then none else
    match s2.2 with
    | '.' :: l4 =>
      let s3 := l4.span Char.isDigit
      if s3.1.isEmpty then none else some (s1.1, s2.1, s3.1, s3.2)
    | _ => none
  | _ => none

/-- Leftmost-match, non-global replace for the triple regexes above.  The
callback receives the three digit-run groups and the `.*` group (the rest of
the line); the text the regex matched is replaced by the callback's result,
and scanning stops (the regexes carry no `g` flag). -/
def replaceTripleOnce (repl : List Char → List Char → List Char → List Char → List Char) :
    List Char → List Char
  | [] => []
  | c :: cs =>
    match matchTripleAt (c :: cs) with
    | some (r1, r2, r3, rest) =>
      let suffix := rest.takeWhile (fun x => !x = '\n')
      let remainder := rest.dropWhile (fun x => !x = '\n')
      repl r1 r2 r3 suffix ++ remainder
    | none => c :: replaceTripleOnce repl cs

/-- Greedy collection of further `\.[a-zA-Z0-9-]+` groups for
`rePrereleaseVersion` (fuel-based scan; fuel bounds the input length). -/
def preSegsF : Nat → List Char → List Char × List Char
  | 0, l => ([], l)
  | fuel + 1, l =>
    match l with
    | '.' :: r =>
      let s := r.span isAlnumHyph
      if s.1.isEmpty then ([], '.' :: r)
      else
        let rec2 := preSegsF fuel s.2
        ('.' :: s.1 ++ rec2.1, rec2.2)
    | _ => ([], l)

/-- The optional group `(?:-([a-zA-Z0-9-]+(?:\.[a-zA-Z0-9-]+)*))?` of
`rePrereleaseVersion`: a `-` followed by a nonempty identifier run starts
the greedy collection; otherwise the optional group matches empty and the
prerelease capture is undefined. -/
def preGroupOf (l : List Char) : Option (List Char) :=
  match l with
  | '-' :: r =>
    let s := r.span isAlnumHyph
    if s.1.isEmpty then none
    else some (s.1 ++ (preSegsF s.2.length s.2).1)
  | _ => none

/-- `rePrereleaseVersion = /^(\d+)\.(\d+)\.(\d+)(?:-([a-zA-Z0-9-]+(?:\.[a-zA-Z0-9-]+)*))?/`:
anchored at the start, not at the end; digit components may have leading
zeros. -/
def matchPrereleaseVersion (l : List Char) :
    Option (List Char × List Char × List Char × Option (List Char)) :=
  let s1 := l.span Char.isDigit
  if s1.1.isEmpty then none else
  match s1.2 with
  | '.' :: l2 =>
    let s2 := l2.span Char.isDigit
    if s2.1.isEmpty then none else
    match s2.2 with
    | '.' :: l4 =>
      let s3 := l4.span Char.isDigit
      if s3.1.isEmpty then none else
      some (s1.1, s2.1, s3.1, preGroupOf s3.2)
    | _ => none
  | _ => none

/-- `rePrereleaseIdNum = /^([a-zA-Z0-9-]+)\.(\d+)$/`: the whole string must be
an identifier run, a single dot, and a digit run. -/
def matchPreIdNum (l : List Char) : Option (List Char × List Char) :=
  let s1 := l.span isAlnumHyph
  if s1.1.isEmpty then none else
  match s1.2 with
  | '.' :: r =>
    let s2 := r.span Char.isDigit
    if s2.1.isEmpty then none else
    if s2.2.isEmpty then some (s1.1, s2.1) else none
  | _ => none

/-- The `SemverLevel` union type; `main` only calls `incrementSemver` with
one of these four commands. -/
inductive SemverLevel where
  | patch | minor | major | prerelease
  deriving Repr, DecidableEq

/-- JS truthiness of the optional `preid` argument: `undefined` and the empty
string are falsy. -/
def preidTruthy : Option String → Bool
  | none => false
  | some p => !p = ""

/-- `incrementSemver` from the source.  Thrown errors become `Except.error`.
Note that in the major/minor/patch branches the replacement callbacks ignore
the `.*` capture group, so any prerelease/build suffix present in the input
is consumed by the match and dropped from the result.

The interpolation `${Number(m) + 1}` is embedded as
`natDigits (digitsToNat m + 1)`.  This coincides with JS exactly when the
parsed value stays below `2 ^ 53`: in that range decimal-to-double parsing,
the `+ 1`, and the result are all exact, and the result (below `1e21`)
renders in plain positional decimal.  Above `2 ^ 53` JS doubles round (and
from `1e21` render exponentially), so theorems about the incremented
numerals carry `digitsToNat _ < 2 ^ 53` bounds rather than asserting the
ideal unbounded arithmetic of this model. -/
def incrementSemver (str : String) (level : SemverLevel) (preid : Option String) :
    Except String String :=
  if ¬ isSemver str then .error ("Invalid semver: " ++ str) else
  match level with
  | .major =>
    let newVer : String :=
      ⟨replaceTripleOnce (fun m1 _ _ _ => natDigits (digitsToNat m1 + 1) ++ ".0.0".toList) str.toList⟩
    .ok (if preidTruthy preid then newVer ++ "-" ++ (preid.getD "") ++ ".0" else newVer)
  | .minor =>
    let newVer : String :=
      ⟨replaceTripleOnce (fun m1 m2 _ _ => m1 ++ '.' :: (natDigits (digitsToNat m2 + 1) ++ ".0".toList)) str.toList⟩
    .ok (if preidTruthy preid then newVer ++ "-" ++ (preid.getD "") ++ ".0" else newVer)
  | .patch =>
    let newVer : String :=
      ⟨replaceTripleOnce (fun m1 m2 m3 _ => m1 ++ '.' :: m2 ++ '.' :: natDigits (digitsToNat m3 + 1)) str.toList⟩
    .ok (if preidTruthy preid then newVer ++ "-" ++ (preid.getD "") ++ ".0" else newVer)
  | .prerelease =>
    if ¬ preidTruthy preid then .error "prerelease requires --preid option" else
    let pid := preid.getD ""
    match matchPrereleaseVersion str.toList with
    | none => .error ("Invalid semver: " ++ str)
    | some (major, minor, patch, prerelease) =>
      match prerelease with
      | none =>
        .ok ⟨major ++ '.' :: minor ++ '.' :: natDigits (digitsToNat patch + 1) ++ '-' :: pid.toList ++ ".0".toList⟩
      | some pre =>
        match matchPreIdNum pre with
        | some (currentPreid, preNum) =>
          if currentPreid = pid.toList then
            .ok ⟨major ++ '.' :: minor ++ '.' :: patch ++ '-' :: pid.toList ++ '.' :: natDigits (digitsToNat preNum + 1)⟩
          else
            .ok ⟨major ++ '.' :: minor ++ '.' :: patch ++ '-' :: pid.toList ++ ".0".toList⟩
        | none =>
          .ok ⟨major ++ '.' :: minor ++ '.' :: patch ++ '-' :: pid.toList ++ ".0".toList⟩

/-! ## A JSON value model

`getFileChanges` parses `package-lock.json` with `JSON.parse` and re-emits it
with `JSON.stringify(lockFile, null, 2)`.  JSON objects are association
lists in textual member order (JS objects preserve insertion order for the
string keys occurring in lockfiles); numbers are modelled as integers (the
lockfile schema contains no fractional numbers — fractional or exponent
literals make the embedded parser fail rather than silently misparse). -/

inductive Json where
  | null
  | bool (b : Bool)
  | num (n : Int)
  | str (s : String)
  | arr (elems : List Json)
  | obj (members : List (String × Json))
  deriving Repr

/-- Member lookup (`o.k`); `none` for absent keys and non-objects. -/
def getMember : Json → String → Option Json
  | .obj ms, k => (ms.find? (fun e => e.1 = k)).map (fun e => e.2)
  | _, _ => none

/-- JS truthiness of a JSON value. -/
def jsTruthy : Json → Bool
  | .null => false
  | .bool b => b
  | .num n => !n = 0
  | .str s => !s = ""
  | _ => true

/-- JS truthiness of an optional chain result (`undefined` is falsy). -/
def jsTruthyOpt : Option Json → Bool
  | none => false
  | some v => jsTruthy v

/-- Assignment `o[k] = v` on an association list: replace the existing entry
in place, otherwise append. -/
def setMemberList (ms : List (String × Json)) (k : String) (v : Json) :
    List (String × Json) :=
  if ms.any (fun e => e.1 = k) then ms.map (fun e => if e.1 = k then (k, v) else e)
  else ms ++ [(k, v)]

/-- Assignment `o[k] = v`; assignments to primitives are ignored (they are
only reached guarded by truthy member reads in the source). -/
def setMember (j : Json) (k : String) (v : Json) : Json :=
  match j with
  | .obj ms => .obj (setMemberList ms k v)
  | _ => j

/-! ### JSON parsing (`JSON.parse`) -/

def isJsonWs (c : Char) : Bool := c = ' ' || c = '\t' || c = '\n' || c = '\r'

def skipWs (l : List Char) : List Char := l.dropWhile isJsonWs

def hexVal (c : Char) : Option Nat :=
  if c.isDigit then some (c.toNat - 48)
  else if 'a' ≤ c ∧ c ≤ 'f' then some (c.toNat - 87)
  else if 'A' ≤ c ∧ c ≤ 'F' then some (c.toNat - 55)
  else none

/-- Parse a JSON string literal body (after the opening quote). -/
def parseStrLit : List Char → Except String (List Char × List Char)
  | [] => .error "Unterminated string in JSON"
  | c :: rest =>
    if c = '"' then .ok ([], rest)
    else if c = '\\' then
      match rest with
      | [] => .error "Unterminated escape in JSON"
      | e :: r2 =>
        if e = 'u' then
          match r2 with
          | h1 :: h2 :: h3 :: h4 :: r3 =>
            match hexVal h1, hexVal h2, hexVal h3, hexVal h4 with
            | some v1, some v2, some v3, some v4 =>
              match parseStrLit r3 with
              | .ok (s, r4) => .ok (Char.ofNat (((v1 * 16 + v2) * 16 + v3) * 16 + v4) :: s, r4)
              | .error msg => .error msg
            | _, _, _, _ => .error "Bad unicode escape in JSON"
          | _ => .error "Bad unicode escape in JSON"
        else
          match
            (if e = '"' then some '"' else if e = '\\' then some '\\'
             else if e = '/' then some '/' else if e = 'b' then some (Char.ofNat 8)
             else if e = 'f' then some (Char.ofNat 12) else if e = 'n' then some '\n'
             else if e = 'r' then some '\r' else if e = 't' then some '\t' else none) with
          | some d =>
            match parseStrLit r2 with
            | .ok (s, r3) => .ok (d :: s, r3)
            | .error msg => .error msg
          | none => .error "Bad escape in JSON"
    else
      match parseStrLit rest with
      | .ok (s, r2) => .ok (c :: s, r2)
      | .error msg => .error msg

/-- Parse a JSON number; only integral literals are supported (see the module
comment on `Json`). -/
def parseJsonNum (l : List Char) : Except String (Int × List Char) :=
  let (neg, l1) := match l with
    | '-' :: r => (true, r)
    | _ => (false, l)
  let s := l1.span Char.isDigit
  if s.1.isEmpty then .error "Bad number in JSON"
  else
    match s.2 with
    | '.' :: _ => .error "Fractional JSON numbers are not modelled"
    | 'e' :: _ => .error "Exponent JSON numbers are not modelled"
    | 'E' :: _ => .error "Exponent JSON numbers are not modelled"
    | r =>
      let n : Int := Int.ofNat (digitsToNat s.1)
      .ok (if neg then -n else n, r)

mutual

/-- Recursive-descent `JSON.parse`; the fuel argument strictly exceeds the
input length at the top call, so it never runs out on real input. -/
def parseJsonVal : Nat → List Char → Except String (Json × List Char)
  | 0, _ => .error "JSON nesting too deep"
  | fuel + 1, l =>
    match skipWs l with
    | [] => .error "Unexpected end of JSON input"
    | c :: rest =>
      if c = '{' then
        match skipWs rest with
        | '}' :: r2 => .ok (.obj [], r2)
        | r2 => parseJsonMembers fuel r2 []
      else if c = '[' then
        match skipWs rest with
        | ']' :: r2 => .ok (.arr [], r2)
        | r2 => parseJsonElems fuel r2 []
      else if c = '"' then
        match parseStrLit rest with
        | .ok (s, r2) => .ok (.str ⟨s⟩, r2)
        | .error msg => .error msg
      else if "true".toList.isPrefixOf (c :: rest) then .ok (.bool true, (c :: rest).drop 4)
      else if "false".toList.isPrefixOf (c :: rest) then .ok (.bool false, (c :: rest).drop 5)
      else if "null".toList.isPrefixOf (c :: rest) then .ok (.null, (c :: rest).drop 4)
      else
        match parseJsonNum (c :: rest) with
        | .ok (n, r2) => .ok (.num n, r2)
        | .error msg => .error msg

def parseJsonMembers : Nat → List Char → List (String × Json) →
    Except String (Json × List Char)
  | 0, _, _ => .error "JSON nesting too deep"
  | fuel + 1, l, acc =>
    match skipWs l with
    | '"' :: r1 =>
      match parseStrLit r1 with
      | .error msg => .error msg
      | .ok (k, r2) =>
        match skipWs r2 with
        | ':' :: r3 =>
          match parseJsonVal fuel r3 with
          | .error msg => .error msg
          | .ok (v, r4) =>
            let acc := setMemberList acc ⟨k⟩ v
            match skipWs r4 with
            | ',' :: r5 => parseJsonMembers fuel r5 acc
            | '}' :: r5 => .ok (.obj acc, r5)
            | _ => .error "Expected , or \x7d in JSON object"
        | _ => .error "Expected : in JSON object"
    | _ => .error "Expected string key in JSON object"

def parseJsonElems : Nat → List Char → List Json → Except String (Json × List Char)
  | 0, _, _ => .error "JSON nesting too deep"
  | fuel + 1, l, acc =>
    match parseJsonVal fuel l with
    | .error msg => .error msg
    | .ok (v, r1) =>
      match skipWs r1 with
      | ',' :: r2 => parseJsonElems fuel r2 (acc ++ [v])
      | ']' :: r2 => .ok (.arr (acc ++ [v]), r2)
      | _ => .error "Expected , or ] in JSON array"

end

/-- `JSON.parse` on a whole document. -/
def parseJson (s : String) : Except String Json :=
  match parseJsonVal (s.toList.length + 1) s.toList with
  | .error msg => .error msg
  | .ok (v, rest) =>
    if (skipWs rest).isEmpty then .ok v
    else .error "Unexpected trailing characters in JSON"

/-! ### JSON serialization (`JSON.stringify(v, null, 2)`) -/

def escJsonChar (c : Char) : List Char :=
  if c = '"' then ['\\', '"']
  else if c = '\\' then ['\\', '\\']
  else if c = '\n' then ['\\', 'n']
  else if c = '\r' then ['\\', 'r']
  else if c = '\t' then ['\\', 't']
  else if c = Char.ofNat 8 then ['\\', 'b']
  else if c = Char.ofNat 12 then ['\\', 'f']
  else if c.toNat < 32 then
    '\\' :: 'u' :: '0' :: '0' :: digitChar (c.toNat / 16) :: [digitChar (c.toNat % 16)]
  else [c]

def escJsonStr (s : String) : String := ⟨s.toList.foldr (fun c acc => escJsonChar c ++ acc) []⟩

def indentStr (n : Nat) : String := ⟨List.replicate (2 * n) ' '⟩

mutual

/-- `JSON.stringify(·, null, 2)` at a given indentation depth. -/
def stringifyJsonAt : Nat → Json → String
  | _, .null => "null"
  | _, .bool b => if b then "true" else "false"
  | _, .num n => toString n
  | _, .str s => "\"" ++ escJsonStr s ++ "\""
  | ind, .arr xs =>
    match xs with
    | [] => "[]"
    | _ =>
      "[\n" ++ String.intercalate ",\n" (stringifyElems (ind + 1) xs) ++ "\n" ++ indentStr ind ++ "]"
  | ind, .obj ms =>
    match ms with
    | [] => "\x7b\x7d"
    | _ =>
      "\x7b\n" ++ String.intercalate ",\n" (stringifyMembers (ind + 1) ms) ++ "\n" ++ indentStr ind ++ "\x7d"

def stringifyElems : Nat → List Json → List String
  | _, [] => []
  | ind, x :: xs => (indentStr ind ++ stringifyJsonAt ind x) :: stringifyElems ind xs

def stringifyMembers : Nat → List (String × Json) → List String
  | _, [] => []
  | ind, e :: ms =>
    (indentStr ind ++ "\"" ++ escJsonStr e.1 ++ "\": " ++ stringifyJsonAt ind e.2) :: stringifyMembers ind ms

end

def stringifyJson (j : Json) : String := stringifyJsonAt 0 j

/-! ## `getFileChanges` -/

/-- The `package-lock.json` mutation (source lines 178–181): update the
top-level `version` member (v1/v2 schema) and the root package entry
`packages[""].version` (v2/v3 schema), each only when present and truthy. -/
def mutateLockfile (lockFile : Json) (newVersion : String) : Json :=
  let j1 :=
    if jsTruthyOpt (getMember lockFile "version") then
      setMember lockFile "version" (.str newVersion)
    else lockFile
  match getMember j1 "packages" with
  | some pkgs =>
    match getMember pkgs "" with
    | some root =>
      if jsTruthyOpt (getMember root "version") then
        setMember j1 "packages" (setMember pkgs "" (setMember root "version" (.str newVersion)))
      else j1
    | none => j1
  | none => j1

/-- The literal text `"version":` that anchors the `package.json` regex. -/
def qVersionKey : List Char := "\"version\":".toList

/-- The lazy gap `[^]*?"` of the `package.json` regex: find the earliest
position holding `"` immediately followed by the literal base version and a
closing `"`; returns the gap and the text after the closing quote. -/
def findQuoteBase (base : List Char) : List Char → Option (List Char × List Char)
  | [] => none
  | c :: cs =>
    if c = '"' && (base ++ ['"']).isPrefixOf cs then some ([], cs.drop (base.length + 1))
    else (findQuoteBase base cs).map (fun pr => (c :: pr.1, pr.2))

/-- The `package.json` branch:
`oldData.replace(new RegExp(`("version":[^]*?")$\x7besc(baseVersion)\x7d(")`), p1 + new + p2)`.
`esc` makes the interpolated base version match literally; the regex has no
`g` flag, so only the leftmost match is replaced. -/
def replacePkgJson (base new : List Char) : List Char → List Char
  | [] => []
  | c :: cs =>
    if qVersionKey.isPrefixOf (c :: cs) then
      match findQuoteBase base ((c :: cs).drop qVersionKey.length) with
      | some (gap, rest) => qVersionKey ++ gap ++ '"' :: (new ++ '"' :: rest)
      | none => c :: replacePkgJson base new cs
    else c :: replacePkgJson base new cs

/-- Single-quote character (39). -/
def squoteC : Char := Char.ofNat 39

/-- Anchored match for the `pyproject.toml` regex
`(^version ?= ?["'])base(["'].*)` at a line start: returns the text of the
first group, the text of the second group (closing quote plus rest of line),
and the remaining input. -/
def matchPyVerAt (base : List Char) (l : List Char) :
    Option (List Char × List Char × List Char) :=
  if "version".toList.isPrefixOf l then
    let l1 := l.drop 7
    let (s1, l2) := match l1 with
      | ' ' :: r => ([' '], r)
      | _ => (([] : List Char), l1)
    match l2 with
    | '=' :: l3 =>
      let (s2, l4) := match l3 with
        | ' ' :: r => ([' '], r)
        | _ => (([] : List Char), l3)
      match l4 with
      | q1 :: l5 =>
        if (q1 = '"' || q1 = squoteC) && base.isPrefixOf l5 then
          match l5.drop base.length with
          | q2 :: l7 =>
            if q2 = '"' || q2 = squoteC then
              some ("version".toList ++ s1 ++ '=' :: s2 ++ [q1],
                    q2 :: l7.takeWhile (fun c => !c = '\n'),
                    l7.dropWhile (fun c => !c = '\n'))
            else none
          | [] => none
        else none
      | [] => none
    | _ => none
  else none

/-- The `pyproject.toml` branch: global multiline replace of the regex above
(`^` with the `m` flag matches after every line terminator). -/
def replacePyprojectF (base new : List Char) : Nat → Bool → List Char → List Char
  | 0, _, s => s
  | fuel + 1, atLineStart, s =>
    match s with
    | [] => []
    | c :: cs =>
      match (if atLineStart then matchPyVerAt base s else none) with
      | some (p1, p2, rest) => p1 ++ new ++ p2 ++ replacePyprojectF base new fuel false rest
      | none => c :: replacePyprojectF base new fuel (c = '\n' || c = '\r') cs

def replacePyproject (base new : List Char) (s : List Char) : List Char :=
  replacePyprojectF base new (s.length + 1) true s

/-- `.+NAME.+` within one line: the line contains the name with at least one
character before and after it. -/
def hasInteriorSubstr (name : List Char) (line : List Char) : Bool :=
  match line with
  | [] => false
  | _ :: r => go r
where
  go : List Char → Bool
    | [] => false
    | s@(_ :: t) => (name.isPrefixOf s && name.length < s.length) || go t

/-- The lazy `.+?"` of the `uv.lock` regex: at least one line character, then
the first `"`. -/
def scanToQuote : List Char → Option (List Char × List Char)
  | [] => none
  | c :: r =>
    if c = '"' then some ([], r)
    else if c = '\n' then none
    else (scanToQuote r).map (fun pr => (c :: pr.1, pr.2))

/-- Anchored match for the `uv.lock` regex
`(\[\[package\]\]\r?\n.+NAME.+\r?\nversion = ").+?(")`: returns the first
group's text and the input remaining after the closing quote. -/
def matchUvAt (name : List Char) (s : List Char) : Option (List Char × List Char) :=
  if "[[package]]".toList.isPrefixOf s then
    let l1 := s.drop 11
    let (nl, l2) : List Char × List Char := match l1 with
      | '\r' :: '\n' :: r => (['\r', '\n'], r)
      | '\n' :: r => (['\n'], r)
      | _ => ([], l1)
    match nl with
    | [] => none
    | _ =>
      let line := l2.takeWhile (fun c => !c = '\n')
      let l3 := l2.dropWhile (fun c => !c = '\n')
      if hasInteriorSubstr name line then
        match l3 with
        | '\n' :: l4 =>
          if "version = \"".toList.isPrefixOf l4 then
            match l4.drop 11 with
            | x :: xs =>
              if x = '\n' then none
              else
                match scanToQuote xs with
                | some (_, rest) =>
                  some ("[[package]]".toList ++ nl ++ line ++ '\n' :: "version = \"".toList, rest)
                | none => none
            | [] => none
          else none
        | _ => none
      else none
  else none

/-- The `uv.lock` branch: leftmost match of the regex above, replaced once. -/
def replaceUvLock (name new : List Char) : List Char → List Char
  | [] => []
  | c :: cs =>
    match matchUvAt name (c :: cs) with
    | some (p1, rest) => p1 ++ new ++ '"' :: rest
    | none => c :: replaceUvLock name new cs

/-- The generic branch: `oldData.replace(new RegExp(esc(baseVersion), "g"),
newVersion)` — global replacement of every literal occurrence.  A JS global
regex that matches the empty string advances one character per step,
inserting the replacement at every position. -/
def replaceAllLitF (pat new : List Char) : Nat → List Char → List Char
  | 0, s => s
  | fuel + 1, s =>
    match s with
    | [] => []
    | c :: cs =>
      if pat.isPrefixOf (c :: cs) then new ++ replaceAllLitF pat new fuel ((c :: cs).drop pat.length)
      else c :: replaceAllLitF pat new fuel cs

def replaceAllLit (pat new s : List Char) : List Char :=
  if pat.isEmpty then new ++ s.foldr (fun c acc => c :: (new ++ acc)) []
  else replaceAllLitF pat new (s.length + 1) s

/-! ### The date pass (`reDatePattern`)

`reDatePattern = /([^0-9]|^)[0-9]{4}-[0-9]{2}-[0-9]{2}([^0-9]|$)/g`.
Each match consumes its non-digit boundary characters (they are re-inserted
by the callback) and the scan resumes after the match, so two date stamps
separated by a single non-digit cannot both match. -/

/-- The fixed chunk `[0-9]{4}-[0-9]{2}-[0-9]{2}` at the head of the input. -/
def dateChunkAt : List Char → Option (List Char)
  | d1 :: d2 :: d3 :: d4 :: '-' :: d5 :: d6 :: '-' :: d7 :: d8 :: rest =>
    if d1.isDigit && d2.isDigit && d3.isDigit && d4.isDigit &&
       d5.isDigit && d6.isDigit && d7.isDigit && d8.isDigit then some rest else none
  | _ => none

/-- The trailing boundary `([^0-9]|$)`: a non-digit character, or the end of
the whole input. -/
def tryDateTail : List Char → Option (List Char × List Char)
  | [] => some ([], [])
  | x :: rs => if !x.isDigit then some ([x], rs) else none

/-- One attempt of `reDatePattern` at the current position; `atStart` is true
only at index 0 (the `^` alternative, tried after `[^0-9]`). -/
def tryDate (atStart : Bool) (s : List Char) : Option (List Char × List Char × List Char) :=
  let viaP1 : Option (List Char × List Char × List Char) :=
    match s with
    | c :: cs =>
      if !c.isDigit then
        match dateChunkAt cs with
        | some r => (tryDateTail r).map (fun pr => ([c], pr.1, pr.2))
        | none => none
      else none
    | [] => none
  match viaP1 with
  | some m => some m
  | none =>
    if atStart then
      match dateChunkAt s with
      | some r => (tryDateTail r).map (fun pr => (([] : List Char), pr.1, pr.2))
      | none => none
    else none

def replaceDatesAuxF (date : List Char) : Nat → Bool → List Char → List Char
  | 0, _, s => s
  | fuel + 1, atStart, s =>
    match s with
    | [] => []
    | c :: cs =>
      match tryDate atStart s with
      | some (p1, p2, rest) => p1 ++ date ++ (p2 ++ replaceDatesAuxF date fuel false rest)
      | none => c :: replaceDatesAuxF date fuel false cs

/-- `newData.replace(reDatePattern, (_, p1, p2) => p1 + date + p2)`. -/
def replaceDates (date : String) (s : String) : String :=
  ⟨replaceDatesAuxF date.toList (s.toList.length + 1) true s.toList⟩

/-- No four consecutive digit characters anywhere (so no `[0-9]{4}` match,
hence no date-pattern match, can start inside such a region). -/
def no4Run : List Char → Bool
  | a :: b :: c :: d :: rest =>
    !(a.isDigit && b.isDigit && c.isDigit && d.isDigit) && no4Run (b :: c :: d :: rest)
  | _ => true

/-- Exactly the shape `[0-9]{4}-[0-9]{2}-[0-9]{2}`. -/
def isDateChunk : List Char → Bool
  | [d1, d2, d3, d4, '-', d5, d6, '-', d7, d8] =>
    d1.isDigit && d2.isDigit && d3.isDigit && d4.isDigit &&
      d5.isDigit && d6.isDigit && d7.isDigit && d8.isDigit
  | _ => false

/-! ### Assembling `getFileChanges` -/

/-- The filesystem: an association list from paths to file contents. -/
abbrev FS := List (String × String)

/-- `readFileSync(path, "utf8")`; a missing file throws. -/
def readFS (fs : FS) (path : String) : Except String String :=
  match (List.find? (fun e => e.1 = path) fs) with
  | some e => .ok e.2
  | none => .error ("ENOENT: no such file, open " ++ path)

/-- `writeFileSync` (the `write` helper truncates and rewrites; the effect on
contents is plain replacement). -/
def writeFS (fs : FS) (path content : String) : FS :=
  if fs.any (fun e => e.1 = path) then
    fs.map (fun e => if e.1 = path then (path, content) else e)
  else fs ++ [(path, content)]

/-- `path.basename` for regular file paths: the part after the last slash
(trailing slashes stripped). -/
def basename (s : String) : String :=
  let l := (s.toList.reverse.dropWhile (fun c => c = '/')).reverse
  if l.isEmpty then s else ⟨((splitCh '/' l).getLast?).getD []⟩

/-- `file.replace(/uv\.lock$/, "pyproject.toml")`. -/
def uvLockToPyproject (s : String) : String :=
  if "uv.lock".toList.reverse.isPrefixOf s.toList.reverse then
    ⟨s.toList.take (s.toList.length - 7) ++ "pyproject.toml".toList⟩
  else s

/-- The filename dispatch of `getFileChanges` (source lines 171–197),
producing the version-substituted content before the date and extra-rule
passes.  `tomlProjectName` stands for the external TOML parser applied as
`parse(projStr).project.name` in the `uv.lock` branch (`none` models the
lookup failing, which in JS throws). -/
def substituteVersion (tomlProjectName : String → Option String) (fs : FS)
    (file oldData baseVersion newVersion : String) : Except String String :=
  let fileName := basename file
  if fileName = "package.json" then
    .ok ⟨replacePkgJson baseVersion.toList newVersion.toList oldData.toList⟩
  else if fileName = "package-lock.json" then
    match parseJson oldData with
    | .error e => .error e
    | .ok lockFile => .ok (stringifyJson (mutateLockfile lockFile newVersion) ++ "\n")
  else if fileName = "pyproject.toml" then
    .ok ⟨replacePyproject baseVersion.toList newVersion.toList oldData.toList⟩
  else if fileName = "uv.lock" then
    match readFS fs (uvLockToPyproject file) with
    | .error e => .error e
    | .ok projStr =>
      match tomlProjectName projStr with
      | none => .error "TypeError: cannot read properties of undefined"
      | some name => .ok ⟨replaceUvLock name.toList newVersion.toList oldData.toList⟩
  else
    .ok ⟨replaceAllLit baseVersion.toList newVersion.toList oldData.toList⟩

/-- Options of `getFileChanges`.  Caller-supplied substitution rules
(`-r "s#re#replacement#flags"`) apply an arbitrary regex with an arbitrary
replacement; each rule is modelled as the string transformation the external
regex engine performs for it.  `date` is the already-formatted date string
(`""` when date stamping is off, as in `main`). -/
structure GetFileChangesOpts where
  file : String
  baseVersion : String
  newVersion : String
  replacements : List (String → String)
  date : String

/-- The full content pipeline of `getFileChanges` after the initial read:
version substitution, then the date pass (when `date` is truthy), then the
caller-supplied rules in order. -/
def computeContent (tomlProjectName : String → Option String) (fs : FS)
    (o : GetFileChangesOpts) (oldData : String) : Except String String :=
  match substituteVersion tomlProjectName fs o.file oldData o.baseVersion o.newVersion with
  | .error e => .error e
  | .ok d1 =>
    let d2 := if ¬ o.date = "" then replaceDates o.date d1 else d1
    .ok (o.replacements.foldl (fun s r => r s) d2)

/-- The "no change" safety error message. -/
def noChangeMsg (o : GetFileChangesOpts) : String :=
  "No replacement made in " ++ o.file ++ " for base version " ++ o.baseVersion

/-- `getFileChanges` (source lines 167–215): read the file, compute the new
content, and fail when the computed content is byte-identical to the old
content; otherwise return the `[file, newData]` pair. -/
def getFileChanges (tomlProjectName : String → Option String) (fs : FS)
    (o : GetFileChangesOpts) : Except String (String × String) :=
  match readFS fs o.file with
  | .error e => .error e
  | .ok oldData =>
    match computeContent tomlProjectName fs o oldData with
    | .error e => .error e
    | .ok newData =>
      if oldData = newData then .error (noChangeMsg o)
      else .ok (o.file, newData)

/-! ## The update phase of `main` (source lines 391–409) -/

/-- Sequential effectful map in `Except`, mirroring the source's
`for`-loop-with-`push`: stops at the first failure. -/
def seqMap (f : α → Except String β) : List α → Except String (List β)
  | [] => .ok []
  | x :: xs =>
    match f x with
    | .error e => .error e
    | .ok y =>
      match seqMap f xs with
      | .error e => .error e
      | .ok ys => .ok (y :: ys)

/-- The file-update block of `main`: verify every target exists, compute all
new contents into `todo` via `getFileChanges`, and only then write each one.
Returns the final filesystem together with the run's outcome. -/
def runUpdateFiles (tomlProjectName : String → Option String) (fs : FS)
    (files : List String) (baseVersion newVersion : String)
    (replacements : List (String → String)) (date : String) :
    FS × Except String Unit :=
  if files.isEmpty then (fs, .ok ()) else
  match seqMap (readFS fs) files with
  | .error e => (fs, .error e)
  | .ok _ =>
    match seqMap (fun f => getFileChanges tomlProjectName fs
        ⟨f, baseVersion, newVersion, replacements, date⟩) files with
    | .error e => (fs, .error e)
    | .ok todo => (todo.foldl (fun acc fd => writeFS acc fd.1 fd.2) fs, .ok ())

/-! ## Base-version resolution (source lines 111–146 and 328–363)

`readVersionFromPackageJson` and `readVersionFromPyprojectToml` are modelled
from the point where the located file has been read and parsed: the
`package.json` argument is the parsed JSON document (`none` when no file is
found by `findUp` or parsing threw), and the `pyproject.toml` argument holds
the values found at `project.version` and `tool.poetry.version` (`none` when
no file is found or parsing threw).  Calling the string-only `isSemver` on a
truthy non-string value throws a `TypeError` in JS, which the surrounding
`try`/`catch` turns into a `null` result — hence the truthy non-string cases
below return `none` immediately. -/

def readVersionFromPackageJson (pkgJson : Option Json) : Option String :=
  match pkgJson with
  | none => none
  | some pkg =>
    match getMember pkg "version" with
    | some (.str s) => if ¬ s = "" ∧ isSemver s then some ⟨stripLeadV s.toList⟩ else none
    | _ => none

def poetryVersionCheck (tv : Option Json) : Option String :=
  match tv with
  | some (.str s) => if ¬ s = "" ∧ isSemver s then some ⟨stripLeadV s.toList⟩ else none
  | _ => none

def readVersionFromPyprojectToml (pyVals : Option (Option Json × Option Json)) :
    Option String :=
  match pyVals with
  | none => none
  | some (pv, tv) =>
    match pv with
    | some (.str s) =>
      if ¬ s = "" ∧ isSemver s then some ⟨stripLeadV s.toList⟩
      else poetryVersionCheck tv
    | some v => if jsTruthy v then none else poetryVersionCheck tv
    | none => poetryVersionCheck tv

/-- ASCII whitespace stripped by `String.prototype.trim` (tag names contain
no exotic Unicode whitespace). -/
def isJsSpace (c : Char) : Bool := c = ' ' || c = '\t' || c = '\n' || c = '\r'

/-- `v.trim()` on each tag line. -/
def jsTrim (s : String) : String :=
  ⟨((s.toList.dropWhile isJsSpace).reverse.dropWhile isJsSpace).reverse⟩

/-- The tag scan of `main`: trim each line of the `git tag --list
--sort=-creatordate` output, drop empties, and take the first semver-valid
tag with its leading `v` stripped; `""` when there is none. -/
def firstSemverTag (tagLines : List String) : String :=
  go ((tagLines.map jsTrim).filter (fun t => ¬ t = ""))
where
  go : List String → String
    | [] => ""
    | t :: ts => if isSemver t then ⟨stripLeadV t.toList⟩ else go ts

/-- Inputs of base-version resolution. -/
structure ResolveInput where
  argsBase : Option String
  gitless : Bool
  tagLines : List String
  pkgJson : Option Json
  pyVals : Option (Option Json × Option Json)

/-- Base-version resolution (source lines 328–363): explicit `--base` wins
when truthy; otherwise the newest semver git tag (unless gitless); otherwise
`package.json` then `pyproject.toml`; otherwise an error in gitless mode and
`"0.0.0"` elsewhere.  The result has a leading `v` stripped and must pass
`isSemver`. -/
def resolveBaseVersion (inp : ResolveInput) : Except String String :=
  let step1 : Except String String :=
    match inp.argsBase with
    | some b =>
      if ¬ b = "" then .ok b
      else resolveFromSources inp
    | none => resolveFromSources inp
  match step1 with
  | .error e => .error e
  | .ok bv =>
    let bv := ⟨stripLeadV bv.toList⟩
    if ¬ isSemver bv then .error ("Invalid base version: " ++ bv)
    else .ok bv
where
  resolveFromSources (inp : ResolveInput) : Except String String :=
    let fromTag := if inp.gitless then "" else firstSemverTag inp.tagLines
    if ¬ fromTag = "" then .ok fromTag
    else
      match (readVersionFromPackageJson inp.pkgJson).orElse
          (fun _ => readVersionFromPyprojectToml inp.pyVals) with
      | some v => .ok v
      | none =>
        if inp.gitless then
          .error "--gitless requires --base to be set or a version in package.json or pyproject.toml"
        else .ok "0.0.0"


/-! ## Auxiliary lemmas about the utility functions -/

theorem joinCh_splitCh (sep : Char) (l : List Char) : joinCh sep (splitCh sep l) = l := by
  induction l with
  | nil => rfl
  | cons c rest ih =>
    simp only [splitCh, splitChAux] at ih ⊢
    split
    · rename_i hc
      subst hc
      cases h : (splitChAux c rest).2 with
      | nil => rw [h] at ih; simpa [joinCh] using ih
      | cons a as => rw [h] at ih; simpa [joinCh] using ih
    · cases h : (splitChAux sep rest).2 with
      | nil => rw [h] at ih; simpa [joinCh] using ih
      | cons a as => rw [h] at ih; simpa [joinCh] using ih

theorem splitChAux_no_sep (sep : Char) (a : List Char) (ha : sep ∉ a) :
    splitChAux sep a = (a, []) := by
  induction a with
  | nil => rfl
  | cons c cs ih =>
    have hc : ¬ c = sep := fun h => ha (h ▸ List.mem_cons_self c cs)
    have hcs : sep ∉ cs := fun h => ha (List.mem_cons_of_mem c h)
    simp [splitChAux, hc, ih hcs]

theorem splitChAux_append (sep : Char) (a b : List Char) (ha : sep ∉ a) :
    splitChAux sep (a ++ sep :: b) = (a, splitCh sep b) := by
  induction a with
  | nil => simp [splitChAux, splitCh]
  | cons c cs ih =>
    have hc : ¬ c = sep := fun h => ha (h ▸ List.mem_cons_self c cs)
    have hcs : sep ∉ cs := fun h => ha (List.mem_cons_of_mem c h)
    simp [splitChAux, hc, ih hcs]

theorem splitCh_append (sep : Char) (a b : List Char) (ha : sep ∉ a) :
    splitCh sep (a ++ sep :: b) = a :: splitCh sep b := by
  simp [splitCh, splitChAux_append sep a b ha]

theorem splitCh_no_sep (sep : Char) (a : List Char) (ha : sep ∉ a) :
    splitCh sep a = [a] := by
  simp [splitCh, splitChAux_no_sep sep a ha]

theorem not_mem_of_mem_splitCh (sep : Char) (l : List Char) :
    ∀ x ∈ splitCh sep l, sep ∉ x := by
  induction l with
  | nil =>
    intro x hx
    simp only [splitCh, splitChAux, List.mem_singleton] at hx
    subst hx; simp
  | cons c rest ih =>
    intro x hx
    simp only [splitCh, splitChAux] at hx
    by_cases hc : c = sep
    · rw [if_pos hc] at hx
      simp only [List.mem_cons] at hx
      rcases hx with rfl | hx
      · simp
      · exact ih x (by simpa [splitCh] using hx)
    · rw [if_neg hc] at hx
      simp only [List.mem_cons] at hx
      rcases hx with rfl | hx
      · intro hm
        rcases List.mem_cons.mp hm with h | h
        · exact hc h.symm
        · exact ih (splitChAux sep rest).1 (by simp [splitCh]) h
      · exact ih x (by simp [splitCh, hx])

theorem takeWhile_append_of (p : Char → Bool) (a b : List Char)
    (ha : ∀ c ∈ a, p c = true)
    (hb : b = [] ∨ ∃ c r, b = c :: r ∧ p c = false) :
    (a ++ b).takeWhile p = a := by
  induction a with
  | nil =>
    rcases hb with rfl | ⟨c, r, rfl, hc⟩
    · rfl
    · simp [List.takeWhile_cons, hc]
  | cons x xs ih =>
    have hx : p x = true := ha x (List.mem_cons_self x xs)
    have hxs : ∀ c ∈ xs, p c = true := fun c hc => ha c (List.mem_cons_of_mem x hc)
    simp [List.takeWhile_cons, hx, ih hxs]

theorem dropWhile_append_of (p : Char → Bool) (a b : List Char)
    (ha : ∀ c ∈ a, p c = true)
    (hb : b = [] ∨ ∃ c r, b = c :: r ∧ p c = false) :
    (a ++ b).dropWhile p = b := by
  induction a with
  | nil =>
    rcases hb with rfl | ⟨c, r, rfl, hc⟩
    · rfl
    · simp [List.dropWhile_cons, hc]
  | cons x xs ih =>
    have hx : p x = true := ha x (List.mem_cons_self x xs)
    have hxs : ∀ c ∈ xs, p c = true := fun c hc => ha c (List.mem_cons_of_mem x hc)
    simp [List.dropWhile_cons, hx, ih hxs]

theorem span_append (p : Char → Bool) (a b : List Char)
    (ha : ∀ c ∈ a, p c = true)
    (hb : b = [] ∨ ∃ c r, b = c :: r ∧ p c = false) :
    (a ++ b).span p = (a, b) := by
  rw [List.span_eq_take_drop, takeWhile_append_of p a b ha hb, dropWhile_append_of p a b ha hb]

theorem digitChar_isDigit (n : Nat) : (digitChar n).isDigit = true := by
  unfold digitChar
  split <;> decide

theorem digitChar_ne_zero_of_pos (n : Nat) (h1 : 0 < n) (h2 : n < 10) :
    ¬ digitChar n = '0' := by
  interval_cases n <;> decide

theorem natDigitsF_congr : ∀ f₁ f₂ n, n < f₁ → n < f₂ → natDigitsF f₁ n = natDigitsF f₂ n := by
  intro f₁
  induction f₁ with
  | zero => intro f₂ n h; omega
  | succ f ih =>
    intro f₂ n h₁ h₂
    cases f₂ with
    | zero => omega
    | succ f₂ =>
      simp only [natDigitsF]
      split
      · rfl
      · rename_i hn
        have hd : n / 10 < f := by
          have := Nat.div_lt_self (n := n) (by omega) (by omega : 1 < 10)
          omega
        have hd₂ : n / 10 < f₂ := by
          have := Nat.div_lt_self (n := n) (by omega) (by omega : 1 < 10)
          omega
        rw [ih f₂ (n / 10) hd hd₂]

theorem natDigits_unfold (n : Nat) :
    natDigits n = if n < 10 then [digitChar n] else natDigits (n / 10) ++ [digitChar (n % 10)] := by
  show natDigitsF (n + 1) n = _
  rw [show natDigitsF (n + 1) n
      = if n < 10 then [digitChar n] else natDigitsF n (n / 10) ++ [digitChar (n % 10)] from rfl]
  split
  · rfl
  · rename_i h
    rw [natDigitsF_congr n (n / 10 + 1) (n / 10)
      (Nat.div_lt_self (by omega) (by omega)) (Nat.lt_succ_self _)]
    rfl

theorem natDigits_ne_nil (n : Nat) : natDigits n ≠ [] := by
  rw [natDigits_unfold]
  split <;> simp

theorem natDigits_all_digit (n : Nat) : ∀ c ∈ natDigits n, c.isDigit = true := by
  induction n using Nat.strong_induction_on with
  | _ n ih =>
    rw [natDigits_unfold]
    split
    · intro c hc
      simp only [List.mem_singleton] at hc
      exact hc ▸ digitChar_isDigit n
    · rename_i hn
      intro c hc
      rw [List.mem_append] at hc
      rcases hc with h | h
      · exact ih (n / 10) (Nat.div_lt_self (by omega) (by omega)) c h
      · simp only [List.mem_singleton] at h
        exact h ▸ digitChar_isDigit (n % 10)

theorem natDigits_no_dot (n : Nat) : '.' ∉ natDigits n := by
  intro h
  have := natDigits_all_digit n '.' h
  simp [Char.isDigit] at this

theorem natDigits_head?_ne_zero (n : Nat) (hn : 0 < n) :
    ¬ (natDigits n).head? = some '0' := by
  induction n using Nat.strong_induction_on with
  | _ n ih =>
    rw [natDigits_unfold]
    split
    · rename_i h10
      simpa using digitChar_ne_zero_of_pos n hn h10
    · rename_i h10
      cases hnd : natDigits (n / 10) with
      | nil => exact absurd hnd (natDigits_ne_nil _)
      | cons d ds =>
        simp only [hnd, List.cons_append, List.head?_cons]
        have hpos : 0 < n / 10 := by
          have : 10 ≤ n := by omega
          exact Nat.div_pos this (by omega)
        have := ih (n / 10) (Nat.div_lt_self (by omega) (by omega)) hpos
        rw [hnd] at this
        simpa using this

theorem seqMap_ok_mem (g : α → Except String β) :
    ∀ (l : List α) (ys : List β), seqMap g l = .ok ys → ∀ x ∈ l, ∃ y, g x = .ok y := by
  intro l
  induction l with
  | nil => intro ys _ x hx; cases hx
  | cons a as ih =>
    intro ys hok x hx
    unfold seqMap at hok
    cases hga : g a with
    | error e => rw [hga] at hok; cases hok
    | ok y =>
      rw [hga] at hok
      cases hrest : seqMap g as with
      | error e => rw [hrest] at hok; cases hok
      | ok ys' =>
        rcases List.mem_cons.mp hx with rfl | hx'
        · exact ⟨y, hga⟩
        · exact ih ys' hrest x hx'

/-! ### Semver grammar lemmas -/

theorem parsePreOpt_some (d : List Char) (pre : Option (List Char))
    (h : parsePreOpt d = some pre) :
    d = preRender pre ∧ (∀ pr, pre = some pr → preTextOk pr = true) := by
  unfold parsePreOpt at h
  split at h
  · cases h
    exact ⟨rfl, by intro pr hpr; cases hpr⟩
  · rename_i preText
    split at h
    · cases h
      refine ⟨rfl, ?_⟩
      intro pr hpr
      cases hpr
      assumption
    · cases h
  · cases h

theorem parseBuildOpt_some (d : List Char) (build : Option (List Char))
    (h : parseBuildOpt d = some build) :
    d = buildRender build ∧ (∀ b, build = some b → buildTextOk b = true) := by
  unfold parseBuildOpt at h
  split at h
  · cases h
    exact ⟨rfl, by intro b hb; cases hb⟩
  · rename_i buildText
    split at h
    · cases h
      refine ⟨rfl, ?_⟩
      intro b hb
      cases hb
      assumption
    · cases h
  · cases h

/-- Structure of a string accepted by the semver grammar: it is exactly the
rendered concatenation of its parts, with the component well-formedness
conditions. -/
theorem parse_decomp (l : List Char) (pts : SvParts)
    (h : parseSemverParts l = some pts) :
    l = pts.M ++ '.' :: pts.m ++ '.' :: pts.p ++ preRender pts.pre ++ buildRender pts.build
    ∧ numOk pts.M = true ∧ numOk pts.m = true ∧ numOk pts.p = true
    ∧ (∀ pr, pts.pre = some pr → preTextOk pr = true)
    ∧ (∀ b, pts.build = some b → buildTextOk b = true) := by
  unfold parseSemverParts at h
  simp only [] at h
  split at h
  · rename_i a b c pre build hsplit hpreb hbuildb
    split at h
    · rename_i hnum
      cases h
      obtain ⟨hd, hpok⟩ := parsePreOpt_some _ _ hpreb
      obtain ⟨hb2, hbok⟩ := parseBuildOpt_some _ _ hbuildb
      have htri : List.takeWhile (fun c => !c = '-') (List.takeWhile (fun c => !c = '+') l)
          = a ++ '.' :: b ++ '.' :: c := by
        have hj := joinCh_splitCh '.'
          (List.takeWhile (fun c => !c = '-') (List.takeWhile (fun c => !c = '+') l))
        rw [hsplit] at hj
        simpa [joinCh] using hj.symm
      have hcore : List.takeWhile (fun c => !c = '+') l
          = (a ++ '.' :: b ++ '.' :: c) ++ preRender pre := by
        conv_lhs => rw [← List.takeWhile_append_dropWhile
          (p := fun c => !c = '-') (l := List.takeWhile (fun c => !c = '+') l)]
        rw [htri, hd]
      have hl : l = ((a ++ '.' :: b ++ '.' :: c) ++ preRender pre) ++ buildRender build := by
        conv_lhs => rw [← List.takeWhile_append_dropWhile (p := fun c => !c = '+') (l := l)]
        rw [hcore, hb2]
      rw [Bool.and_eq_true, Bool.and_eq_true] at hnum
      refine ⟨?_, hnum.1.1, hnum.1.2, hnum.2, hpok, hbok⟩
      simpa [List.append_assoc] using hl
    · cases h
  · cases h

theorem mem_joinCh (sep : Char) (parts : List (List Char)) (c : Char)
    (h : c ∈ joinCh sep parts) : c = sep ∨ ∃ x ∈ parts, c ∈ x := by
  induction parts with
  | nil => cases h
  | cons x xs ih =>
    cases xs with
    | nil =>
      simp only [joinCh] at h
      exact Or.inr ⟨x, List.mem_cons_self x [], h⟩
    | cons y ys =>
      simp only [joinCh] at h
      rw [List.mem_append] at h
      rcases h with h | h
      · exact Or.inr ⟨x, List.mem_cons_self _ _, h⟩
      · rcases List.mem_cons.mp h with rfl | h2
        · exact Or.inl rfl
        · rcases ih h2 with h3 | ⟨z, hz, hc⟩
          · exact Or.inl h3
          · exact Or.inr ⟨z, List.mem_cons_of_mem x hz, hc⟩

theorem numOk_facts (l : List Char) (h : numOk l = true) :
    ¬ l = [] ∧ ∀ c ∈ l, c.isDigit = true := by
  unfold numOk at h
  rw [Bool.and_eq_true, Bool.and_eq_true] at h
  refine ⟨?_, ?_⟩
  · intro he
    subst he
    simp at h
  · intro c hc
    exact List.all_eq_true.mp h.1.2 c hc

theorem digit_ne (c : Char) (h : c.isDigit = true) :
    ¬ c = '+' ∧ ¬ c = '-' ∧ ¬ c = '.' ∧ ¬ c = '\n' ∧ ¬ c = 'v' := by
  refine ⟨?_, ?_, ?_, ?_, ?_⟩ <;>
    (intro he; rw [he] at h; exact absurd h (by decide))

theorem digit_alnumHyph (c : Char) (h : c.isDigit = true) : isAlnumHyph c = true := by
  simp [isAlnumHyph, Char.isAlphanum, h]

theorem alnumHyph_ne (c : Char) (h : isAlnumHyph c = true) :
    ¬ c = '+' ∧ ¬ c = '.' ∧ ¬ c = '\n' := by
  refine ⟨?_, ?_, ?_⟩ <;>
    (intro he; rw [he] at h; exact absurd h (by decide))

theorem preTextOk_chars (pr : List Char) (h : preTextOk pr = true) :
    ∀ c ∈ pr, isAlnumHyph c = true ∨ c = '.' := by
  intro c hc
  rw [← joinCh_splitCh '.' pr] at hc
  rcases mem_joinCh '.' _ c hc with rfl | ⟨x, hx, hcx⟩
  · exact Or.inr rfl
  · unfold preTextOk at h
    have := List.all_eq_true.mp h x hx
    unfold preIdOk at this
    rw [Bool.and_eq_true, Bool.and_eq_true] at this
    exact Or.inl (List.all_eq_true.mp this.1.2 c hcx)

theorem buildTextOk_chars (b : List Char) (h : buildTextOk b = true) :
    ∀ c ∈ b, isAlnumHyph c = true ∨ c = '.' := by
  intro c hc
  rw [← joinCh_splitCh '.' b] at hc
  rcases mem_joinCh '.' _ c hc with rfl | ⟨x, hx, hcx⟩
  · exact Or.inr rfl
  · unfold buildTextOk at h
    have := List.all_eq_true.mp h x hx
    unfold buildIdOk at this
    rw [Bool.and_eq_true] at this
    exact Or.inl (List.all_eq_true.mp this.2 c hcx)

/-- Character-level facts about a rendered version: the core (triple plus
prerelease) contains no `+`, and every character after the patch component
is reachable only through `-`/`+` heads. -/
theorem preRender_chars (pre : Option (List Char))
    (hpre : ∀ pr, pre = some pr → preTextOk pr = true) :
    ∀ c ∈ preRender pre, ¬ c = '+' := by
  intro c hc
  cases pre with
  | none => simp [preRender] at hc
  | some pr =>
    simp only [preRender] at hc
    rcases List.mem_cons.mp hc with rfl | h2
    · decide
    · rcases preTextOk_chars pr (hpre pr rfl) c h2 with h3 | rfl
      · exact (alnumHyph_ne c h3).1
      · decide

/-- The converse of `parse_decomp`: a rendered version with well-formed
components is accepted by the grammar and parses back to its parts. -/
theorem parse_render (M m p : List Char) (pre build : Option (List Char))
    (hM : numOk M = true) (hm : numOk m = true) (hp : numOk p = true)
    (hpre : ∀ pr, pre = some pr → preTextOk pr = true)
    (hbuild : ∀ b, build = some b → buildTextOk b = true) :
    parseSemverParts (M ++ '.' :: m ++ '.' :: p ++ preRender pre ++ buildRender build)
      = some ⟨M, m, p, pre, build⟩ := by
  obtain ⟨hMne, hMd⟩ := numOk_facts M hM
  obtain ⟨hmne, hmd⟩ := numOk_facts m hm
  obtain ⟨hpne, hpd⟩ := numOk_facts p hp
  have hMplus : ∀ c ∈ M, (fun c => !c = '+') c = true := fun c hc => by
    simpa using (digit_ne c (hMd c hc)).1
  have hmplus : ∀ c ∈ m, (fun c => !c = '+') c = true := fun c hc => by
    simpa using (digit_ne c (hmd c hc)).1
  have hpplus : ∀ c ∈ p, (fun c => !c = '+') c = true := fun c hc => by
    simpa using (digit_ne c (hpd c hc)).1
  have hprePlus : ∀ c ∈ preRender pre, (fun c => !c = '+') c = true := fun c hc => by
    simpa using preRender_chars pre hpre c hc
  have hcoreChars : ∀ c ∈ (M ++ '.' :: m ++ '.' :: p ++ preRender pre),
      (fun c => !c = '+') c = true := by
    refine List.forall_mem_append.mpr ⟨List.forall_mem_append.mpr
      ⟨List.forall_mem_append.mpr ⟨hMplus, List.forall_mem_cons.mpr ⟨by decide, hmplus⟩⟩,
       List.forall_mem_cons.mpr ⟨by decide, hpplus⟩⟩, hprePlus⟩
  have hbuildHead : buildRender build = []
      ∨ ∃ c r, buildRender build = c :: r ∧ (fun c => !c = '+') c = false := by
    cases build with
    | none => exact Or.inl rfl
    | some b => exact Or.inr ⟨'+', b, rfl, by decide⟩
  have hassoc : M ++ '.' :: m ++ '.' :: p ++ preRender pre ++ buildRender build
      = (M ++ '.' :: m ++ '.' :: p ++ preRender pre) ++ buildRender build := by
    simp [List.append_assoc]
  have htake1 : List.takeWhile (fun c => !c = '+')
      (M ++ '.' :: m ++ '.' :: p ++ preRender pre ++ buildRender build)
      = M ++ '.' :: m ++ '.' :: p ++ preRender pre := by
    rw [hassoc]
    exact takeWhile_append_of _ _ _ hcoreChars hbuildHead
  have hdrop1 : List.dropWhile (fun c => !c = '+')
      (M ++ '.' :: m ++ '.' :: p ++ preRender pre ++ buildRender build)
      = buildRender build := by
    rw [hassoc]
    exact dropWhile_append_of _ _ _ hcoreChars hbuildHead
  have htriChars : ∀ c ∈ (M ++ '.' :: m ++ '.' :: p), (fun c => !c = '-') c = true := by
    refine List.forall_mem_append.mpr ⟨List.forall_mem_append.mpr
      ⟨?_, List.forall_mem_cons.mpr ⟨by decide, ?_⟩⟩,
       List.forall_mem_cons.mpr ⟨by decide, ?_⟩⟩ <;>
      (intro c hc)
    · simpa using (digit_ne c (hMd c hc)).2.1
    · simpa using (digit_ne c (hmd c hc)).2.1
    · simpa using (digit_ne c (hpd c hc)).2.1
  have hpreHead : preRender pre = []
      ∨ ∃ c r, preRender pre = c :: r ∧ (fun c => !c = '-') c = false := by
    cases pre with
    | none => exact Or.inl rfl
    | some pr => exact Or.inr ⟨'-', pr, rfl, by decide⟩
  have hassoc2 : M ++ '.' :: m ++ '.' :: p ++ preRender pre
      = (M ++ '.' :: m ++ '.' :: p) ++ preRender pre := by
    simp [List.append_assoc]
  have htake2 : List.takeWhile (fun c => !c = '-') (M ++ '.' :: m ++ '.' :: p ++ preRender pre)
      = M ++ '.' :: m ++ '.' :: p := by
    rw [hassoc2]
    exact takeWhile_append_of _ _ _ htriChars hpreHead
  have hdrop2 : List.dropWhile (fun c => !c = '-') (M ++ '.' :: m ++ '.' :: p ++ preRender pre)
      = preRender pre := by
    rw [hassoc2]
    exact dropWhile_append_of _ _ _ htriChars hpreHead
  have hMnoDot : '.' ∉ M := fun hc => (digit_ne '.' (hMd '.' hc)).2.2.1 rfl
  have hmnoDot : '.' ∉ m := fun hc => (digit_ne '.' (hmd '.' hc)).2.2.1 rfl
  have hpnoDot : '.' ∉ p := fun hc => (digit_ne '.' (hpd '.' hc)).2.2.1 rfl
  have hsplit : splitCh '.' (M ++ '.' :: m ++ '.' :: p) = [M, m, p] := by
    rw [show M ++ '.' :: m ++ '.' :: p = M ++ '.' :: (m ++ '.' :: p) by simp,
      splitCh_append '.' M _ hMnoDot, splitCh_append '.' m p hmnoDot, splitCh_no_sep '.' p hpnoDot]
  have hpreOpt : parsePreOpt (preRender pre) = some pre := by
    cases pre with
    | none => rfl
    | some pr => simp [parsePreOpt, preRender, hpre pr rfl]
  have hbuildOpt : parseBuildOpt (buildRender build) = some build := by
    cases build with
    | none => rfl
    | some b => simp [parseBuildOpt, buildRender, hbuild b rfl]
  unfold parseSemverParts
  simp only [htake1, hdrop1, htake2, hdrop2, hsplit, hpreOpt, hbuildOpt, hM, hm, hp]
  rfl

theorem parse_head_digit (l : List Char) (pts : SvParts)
    (h : parseSemverParts l = some pts) :
    ∃ d r, l = d :: r ∧ d.isDigit = true := by
  obtain ⟨hl, hM, _⟩ := parse_decomp l pts h
  obtain ⟨hMne, hMd⟩ := numOk_facts pts.M hM
  cases hM' : pts.M with
  | nil => exact absurd hM' hMne
  | cons d ds =>
    refine ⟨d, ds ++ '.' :: pts.m ++ '.' :: pts.p ++ preRender pts.pre ++ buildRender pts.build,
      ?_, hMd d (by rw [hM']; exact List.mem_cons_self _ _)⟩
    rw [hl, hM']
    simp [List.append_assoc]

theorem stripLeadV_of_not_v (l : List Char) (h : ∀ r, ¬ l = 'v' :: r) :
    stripLeadV l = l := by
  unfold stripLeadV
  split
  · rename_i r
    exact absurd rfl (h r)
  · rfl

/-- A string the grammar accepts cannot begin with `v`, so a further
`^v`-strip leaves it unchanged. -/
theorem parse_no_v (l : List Char) (pts : SvParts)
    (h : parseSemverParts l = some pts) : stripLeadV l = l := by
  obtain ⟨d, r, rfl, hd⟩ := parse_head_digit l pts h
  apply stripLeadV_of_not_v
  intro r' he
  have hdv : d = 'v' := by
    have := congrArg (fun x => x.head?) he
    simpa using this
  rw [hdv] at hd
  exact absurd hd (by decide)

theorem firstSemverTag_go_empty : ∀ l : List String,
    (∀ t ∈ l, isSemver t = false) → firstSemverTag.go l = "" := by
  intro l
  induction l with
  | nil => intro _; rfl
  | cons t ts ih =>
    intro h
    unfold firstSemverTag.go
    rw [h t (List.mem_cons_self _ _)]
    simpa using ih (fun x hx => h x (List.mem_cons_of_mem t hx))

theorem firstSemverTag_empty (lines : List String)
    (h : ∀ t ∈ lines, isSemver (jsTrim t) = false) : firstSemverTag lines = "" := by
  unfold firstSemverTag
  apply firstSemverTag_go_empty
  intro x hx
  rw [List.mem_filter] at hx
  obtain ⟨t, ht, rfl⟩ := List.mem_map.mp hx.1
  exact h t ht

/-- On a reader result that came from the grammar, the final strip/validate
steps of resolution succeed and return the same string. -/
theorem finalize_stripped (s : String) (pts : SvParts)
    (h : parseSemverParts (stripLeadV s.toList) = some pts) :
    (if ¬ isSemver (⟨stripLeadV (String.mk (stripLeadV s.toList)).toList⟩ : String)
      then (Except.error ("Invalid base version: "
        ++ (⟨stripLeadV (String.mk (stripLeadV s.toList)).toList⟩ : String)) : Except String String)
      else Except.ok ⟨stripLeadV (String.mk (stripLeadV s.toList)).toList⟩)
      = Except.ok ⟨stripLeadV s.toList⟩ := by
  have hlist : (String.mk (stripLeadV s.toList)).toList = stripLeadV s.toList := rfl
  have hidem : stripLeadV (stripLeadV s.toList) = stripLeadV s.toList := parse_no_v _ pts h
  rw [hlist, hidem]
  have hsem : isSemver (⟨stripLeadV s.toList⟩ : String) = true := by
    unfold isSemver
    rw [show (⟨stripLeadV s.toList⟩ : String).toList = stripLeadV s.toList from rfl, hidem, h]
    rfl
  rw [hsem]
  simp

/-! ### Association-list lemmas for the lockfile mutation -/

theorem find?_map_replace_self (ms : List (String × Json)) (k : String) (v : Json)
    (hany : ms.any (fun e => e.1 = k) = true) :
    List.find? (fun e => e.1 = k) (ms.map (fun e => if e.1 = k then (k, v) else e))
      = some (k, v) := by
  induction ms with
  | nil => simp at hany
  | cons e es ih =>
    by_cases he : e.1 = k
    · rw [List.map_cons, if_pos he]
      exact List.find?_cons_of_pos _ (by simp)
    · rw [List.map_cons, if_neg he, List.find?_cons_of_neg _ (by simp [he])]
      apply ih
      rw [List.any_cons] at hany
      rcases Bool.or_eq_true_iff.mp hany with h | h
      · exact absurd (of_decide_eq_true h) he
      · exact h

theorem find?_append_single_self (ms : List (String × Json)) (k : String) (v : Json)
    (hnone : ¬ ms.any (fun e => e.1 = k) = true) :
    List.find? (fun e => e.1 = k) (ms ++ [(k, v)]) = some (k, v) := by
  induction ms with
  | nil =>
    simp only [List.nil_append]
    exact List.find?_cons_of_pos _ (by simp)
  | cons e es ih =>
    have he : ¬ e.1 = k := fun h => hnone (by simp [List.any_cons, h])
    have hes : ¬ es.any (fun e => e.1 = k) = true := fun h => hnone (by simp [List.any_cons, h])
    rw [List.cons_append, List.find?_cons_of_neg _ (by simp [he])]
    exact ih hes

theorem find?_map_replace_other (ms : List (String × Json)) (k k' : String) (v : Json)
    (hne : ¬ k' = k) :
    List.find? (fun e => e.1 = k') (ms.map (fun e => if e.1 = k then (k, v) else e))
      = List.find? (fun e => e.1 = k') ms := by
  induction ms with
  | nil => rfl
  | cons e es ih =>
    by_cases he : e.1 = k
    · rw [List.map_cons, if_pos he,
        List.find?_cons_of_neg _ (by simp; exact fun h => hne h.symm),
        List.find?_cons_of_neg _ (by simp [he]; exact fun h => hne h.symm)]
      exact ih
    · rw [List.map_cons, if_neg he]
      by_cases he' : e.1 = k'
      · rw [List.find?_cons_of_pos _ (by simp [he']), List.find?_cons_of_pos _ (by simp [he'])]
      · rw [List.find?_cons_of_neg _ (by simp [he']), List.find?_cons_of_neg _ (by simp [he'])]
        exact ih

theorem find?_append_single_other (ms : List (String × Json)) (k k' : String) (v : Json)
    (hne : ¬ k' = k) :
    List.find? (fun e => e.1 = k') (ms ++ [(k, v)])
      = List.find? (fun e => e.1 = k') ms := by
  induction ms with
  | nil =>
    simp only [List.nil_append]
    rw [List.find?_cons_of_neg _ (by simp; exact fun h => hne h.symm)]
  | cons e es ih =>
    by_cases he' : e.1 = k'
    · rw [List.cons_append, List.find?_cons_of_pos _ (by simp [he']),
        List.find?_cons_of_pos _ (by simp [he'])]
    · rw [List.cons_append, List.find?_cons_of_neg _ (by simp [he']),
        List.find?_cons_of_neg _ (by simp [he'])]
      exact ih

theorem setMemberList_cases (ms : List (String × Json)) (k : String) (v : Json) :
    setMemberList ms k v
      = if ms.any (fun e => e.1 = k) then ms.map (fun e => if e.1 = k then (k, v) else e)
        else ms ++ [(k, v)] := rfl

theorem getMember_setMember_self (ms : List (String × Json)) (k : String) (v : Json) :
    getMember (setMember (.obj ms) k v) k = some v := by
  show (List.find? (fun e => e.1 = k) (setMemberList ms k v)).map (fun e => e.2) = some v
  rw [setMemberList_cases]
  by_cases hany : ms.any (fun e => e.1 = k) = true
  · rw [if_pos hany, find?_map_replace_self ms k v hany]
    rfl
  · rw [if_neg hany, find?_append_single_self ms k v hany]
    rfl

theorem getMember_setMember_other (j : Json) (k k' : String) (v : Json) (hne : ¬ k' = k) :
    getMember (setMember j k v) k' = getMember j k' := by
  cases j with
  | obj ms =>
    show (List.find? (fun e => e.1 = k') (setMemberList ms k v)).map (fun e => e.2)
      = (List.find? (fun e => e.1 = k') ms).map (fun e => e.2)
    rw [setMemberList_cases]
    by_cases hany : ms.any (fun e => e.1 = k) = true
    · rw [if_pos hany, find?_map_replace_other ms k k' v hne]
    · rw [if_neg hany, find?_append_single_other ms k k' v hne]
  | null => rfl
  | bool b => rfl
  | num n => rfl
  | str s => rfl
  | arr xs => rfl

theorem getMember_some_obj (j : Json) (k : String) (x : Json)
    (h : getMember j k = some x) : ∃ ms, j = .obj ms := by
  cases j with
  | obj ms => exact ⟨ms, rfl⟩
  | null => cases h
  | bool b => cases h
  | num n => cases h
  | str s => cases h
  | arr xs => cases h

theorem mutateLockfile_j1_other (j : Json) (v : String) (k : String)
    (hk : ¬ k = "version") :
    getMember (if jsTruthyOpt (getMember j "version")
      then setMember j "version" (Json.str v) else j) k = getMember j k := by
  split
  · exact getMember_setMember_other j "version" k (Json.str v) hk
  · rfl

/-! ### Lemmas about the triple-regex replace -/

theorem isEmpty_false_of_ne_nil (l : List Char) (h : ¬ l = []) : l.isEmpty = false := by
  cases l with
  | nil => exact absurd rfl h
  | cons a as => rfl

theorem matchTripleAt_render (M m p rest : List Char)
    (hM : ¬ M = []) (hMd : ∀ c ∈ M, c.isDigit = true)
    (hm : ¬ m = []) (hmd : ∀ c ∈ m, c.isDigit = true)
    (hp : ¬ p = []) (hpd : ∀ c ∈ p, c.isDigit = true)
    (hrest : rest = [] ∨ ∃ c r, rest = c :: r ∧ c.isDigit = false) :
    matchTripleAt (M ++ '.' :: (m ++ '.' :: (p ++ rest))) = some (M, m, p, rest) := by
  have h1 : (M ++ '.' :: (m ++ '.' :: (p ++ rest))).span Char.isDigit
      = (M, '.' :: (m ++ '.' :: (p ++ rest))) :=
    span_append Char.isDigit M _ hMd (Or.inr ⟨'.', _, rfl, by decide⟩)
  have h2 : (m ++ '.' :: (p ++ rest)).span Char.isDigit = (m, '.' :: (p ++ rest)) :=
    span_append Char.isDigit m _ hmd (Or.inr ⟨'.', _, rfl, by decide⟩)
  have h3 : (p ++ rest).span Char.isDigit = (p, rest) :=
    span_append Char.isDigit p rest hpd hrest
  unfold matchTripleAt
  rw [h1]
  simp only [isEmpty_false_of_ne_nil M hM]
  rw [h2]
  simp only [isEmpty_false_of_ne_nil m hm]
  rw [h3]
  simp only [isEmpty_false_of_ne_nil p hp]
  rfl

theorem matchTripleAt_v (l : List Char) : matchTripleAt ('v' :: l) = none := by
  unfold matchTripleAt
  rw [List.span_eq_take_drop]
  simp [List.takeWhile_cons]

theorem replaceTripleOnce_v (repl : List Char → List Char → List Char → List Char → List Char)
    (l : List Char) : replaceTripleOnce repl ('v' :: l) = 'v' :: replaceTripleOnce repl l := by
  simp only [replaceTripleOnce, matchTripleAt_v]

theorem replaceTripleOnce_render
    (repl : List Char → List Char → List Char → List Char → List Char)
    (M m p rest : List Char)
    (hM : ¬ M = []) (hMd : ∀ c ∈ M, c.isDigit = true)
    (hm : ¬ m = []) (hmd : ∀ c ∈ m, c.isDigit = true)
    (hp : ¬ p = []) (hpd : ∀ c ∈ p, c.isDigit = true)
    (hrest : rest = [] ∨ ∃ c r, rest = c :: r ∧ c.isDigit = false)
    (hnl : ∀ c ∈ rest, (fun x => !x = '\n') c = true) :
    replaceTripleOnce repl (M ++ '.' :: (m ++ '.' :: (p ++ rest)))
      = repl M m p rest := by
  have hmatch := matchTripleAt_render M m p rest hM hMd hm hmd hp hpd hrest
  cases M with
  | nil => exact absurd rfl hM
  | cons d M' =>
    rw [List.cons_append] at hmatch ⊢
    unfold replaceTripleOnce
    rw [hmatch]
    simp only []
    have htw : rest.takeWhile (fun x => !x = '\n') = rest := by
      have := takeWhile_append_of (fun x => !x = '\n') rest [] hnl (Or.inl rfl)
      simpa using this
    have hdw : rest.dropWhile (fun x => !x = '\n') = [] := by
      have := dropWhile_append_of (fun x => !x = '\n') rest [] hnl (Or.inl rfl)
      simpa using this
    rw [htw, hdw, List.append_nil]

/-! ### Lemmas about `rePrereleaseVersion` on grammar-valid input -/

theorem joinCh_eq_head_dotsRender (x : List Char) (xs : List (List Char)) :
    joinCh '.' (x :: xs) = x ++ dotsRender xs := by
  induction xs generalizing x with
  | nil => simp [joinCh, dotsRender]
  | cons y ys ih =>
    simp only [joinCh, dotsRender]
    rw [ih y]

theorem preSegsF_succ_ne_dot (f : Nat) (c : Char) (r : List Char) (hc : ¬ c = '.') :
    preSegsF (f+1) (c :: r) = ([], c :: r) := by
  unfold preSegsF
  split
  · rename_i heq
    injection heq with h1 h2
    exact absurd h1 hc
  · rfl

theorem preSegsF_succ_dot (f : Nat) (r : List Char) :
    preSegsF (f+1) ('.' :: r)
      = (if (r.span isAlnumHyph).1.isEmpty then ([], '.' :: r)
         else ('.' :: (r.span isAlnumHyph).1 ++ (preSegsF f (r.span isAlnumHyph).2).1,
               (preSegsF f (r.span isAlnumHyph).2).2)) := rfl

theorem preSegsF_collect (segs : List (List Char)) (trailer : List Char) (fuel : Nat)
    (hsegs : ∀ x ∈ segs, ¬ x = [] ∧ ∀ c ∈ x, isAlnumHyph c = true)
    (htrailer : trailer = [] ∨ ∃ c r, trailer = c :: r ∧ isAlnumHyph c = false ∧ ¬ c = '.')
    (hfuel : (dotsRender segs ++ trailer).length ≤ fuel) :
    preSegsF fuel (dotsRender segs ++ trailer) = (dotsRender segs, trailer) := by
  induction segs generalizing fuel with
  | nil =>
    simp only [dotsRender, List.nil_append]
    cases fuel with
    | zero => rfl
    | succ f =>
      rcases htrailer with rfl | ⟨c, r, rfl, _, hcd⟩
      · rfl
      · exact preSegsF_succ_ne_dot f c r hcd
  | cons x xs ih =>
    obtain ⟨hxne, hxal⟩ := hsegs x (List.mem_cons_self x xs)
    have hxs : ∀ y ∈ xs, ¬ y = [] ∧ ∀ c ∈ y, isAlnumHyph c = true :=
      fun y hy => hsegs y (List.mem_cons_of_mem x hy)
    have hshape : dotsRender (x :: xs) ++ trailer = '.' :: (x ++ (dotsRender xs ++ trailer)) := by
      simp [dotsRender, List.append_assoc]
    cases fuel with
    | zero =>
      exfalso
      rw [hshape] at hfuel
      simp at hfuel
    | succ f =>
      rw [hshape, preSegsF_succ_dot]
      have hspan : (x ++ (dotsRender xs ++ trailer)).span isAlnumHyph
          = (x, dotsRender xs ++ trailer) := by
        apply span_append isAlnumHyph x _ hxal
        cases xs with
        | nil =>
          simp only [dotsRender, List.nil_append]
          rcases htrailer with rfl | ⟨c, r, rfl, hcal, _⟩
          · exact Or.inl rfl
          · exact Or.inr ⟨c, r, rfl, hcal⟩
        | cons y ys => exact Or.inr ⟨'.', _, rfl, by decide⟩
      rw [hspan]
      simp only [isEmpty_false_of_ne_nil x hxne, if_false]
      have hfuel2 : (dotsRender xs ++ trailer).length ≤ f := by
        rw [hshape] at hfuel
        simp only [List.length_cons, List.length_append] at hfuel ⊢
        have hx1 : 1 ≤ x.length := by
          cases x with
          | nil => exact absurd rfl hxne
          | cons a as => simp
        omega
      rw [ih f hxs hfuel2]
      simp [dotsRender, List.append_assoc]

theorem preGroupOf_ne_dash (l : List Char)
    (h : l = [] ∨ ∃ c r, l = c :: r ∧ ¬ c = '-') : preGroupOf l = none := by
  rcases h with rfl | ⟨c, r, rfl, hc⟩
  · rfl
  · unfold preGroupOf
    split
    · rename_i heq
      injection heq with h1 h2
      exact absurd h1 hc
    · rfl

theorem preGroupOf_dash (r : List Char) :
    preGroupOf ('-' :: r)
      = (if (r.span isAlnumHyph).1.isEmpty then none
         else some ((r.span isAlnumHyph).1
           ++ (preSegsF (r.span isAlnumHyph).2.length (r.span isAlnumHyph).2).1)) := rfl

theorem preGroupOf_render (seg1 : List Char) (restSegs : List (List Char)) (trailer : List Char)
    (hseg1ne : ¬ seg1 = []) (hseg1al : ∀ c ∈ seg1, isAlnumHyph c = true)
    (hrest : ∀ x ∈ restSegs, ¬ x = [] ∧ ∀ c ∈ x, isAlnumHyph c = true)
    (htrailer : trailer = [] ∨ ∃ c r, trailer = c :: r ∧ isAlnumHyph c = false ∧ ¬ c = '.') :
    preGroupOf ('-' :: (seg1 ++ dotsRender restSegs ++ trailer))
      = some (seg1 ++ dotsRender restSegs) := by
  rw [List.append_assoc, preGroupOf_dash]
  have hspan : (seg1 ++ (dotsRender restSegs ++ trailer)).span isAlnumHyph
      = (seg1, dotsRender restSegs ++ trailer) := by
    apply span_append isAlnumHyph seg1 _ hseg1al
    cases restSegs with
    | nil =>
      simp only [dotsRender, List.nil_append]
      rcases htrailer with rfl | ⟨c, r, rfl, hcal, _⟩
      · exact Or.inl rfl
      · exact Or.inr ⟨c, r, rfl, hcal⟩
    | cons y ys => exact Or.inr ⟨'.', _, rfl, by decide⟩
  rw [hspan]
  simp only [isEmpty_false_of_ne_nil seg1 hseg1ne, if_false]
  rw [preSegsF_collect restSegs trailer _ hrest htrailer (le_refl _)]
  simp

/-- `rePrereleaseVersion` applied to a rendered grammar-valid version:
the triple is recovered and the prerelease group is exactly the prerelease
text (the build-metadata section never contributes, since `+` is outside the
identifier character class). -/
theorem matchPrerelease_render (M m p : List Char) (pre build : Option (List Char))
    (hM : ¬ M = []) (hMd : ∀ c ∈ M, c.isDigit = true)
    (hm : ¬ m = []) (hmd : ∀ c ∈ m, c.isDigit = true)
    (hp : ¬ p = []) (hpd : ∀ c ∈ p, c.isDigit = true)
    (hpre : ∀ pr, pre = some pr → preTextOk pr = true)
    (hbuild : ∀ b, build = some b → buildTextOk b = true) :
    matchPrereleaseVersion (M ++ '.' :: (m ++ '.' :: (p ++ preRender pre ++ buildRender build)))
      = some (M, m, p, pre) := by
  have hbuildHead : buildRender build = []
      ∨ ∃ c r, buildRender build = c :: r ∧ isAlnumHyph c = false ∧ ¬ c = '.' := by
    cases build with
    | none => exact Or.inl rfl
    | some b => exact Or.inr ⟨'+', b, rfl, by decide, by decide⟩
  have hrest : preRender pre ++ buildRender build = []
      ∨ ∃ c r, preRender pre ++ buildRender build = c :: r ∧ c.isDigit = false := by
    cases pre with
    | none =>
      simp only [preRender, List.nil_append]
      rcases hbuildHead with h | ⟨c, r, hcr, hcal, _⟩
      · exact Or.inl h
      · refine Or.inr ⟨c, r, hcr, ?_⟩
        cases hcd : c.isDigit with
        | false => rfl
        | true => exact absurd (digit_alnumHyph c hcd) (by simp [hcal])
    | some pr => exact Or.inr ⟨'-', _, rfl, by decide⟩
  have h1 : (M ++ '.' :: (m ++ '.' :: (p ++ preRender pre ++ buildRender build))).span Char.isDigit
      = (M, '.' :: (m ++ '.' :: (p ++ preRender pre ++ buildRender build))) :=
    span_append Char.isDigit M _ hMd (Or.inr ⟨'.', _, rfl, by decide⟩)
  have h2 : (m ++ '.' :: (p ++ preRender pre ++ buildRender build)).span Char.isDigit
      = (m, '.' :: (p ++ preRender pre ++ buildRender build)) :=
    span_append Char.isDigit m _ hmd (Or.inr ⟨'.', _, rfl, by decide⟩)
  have h3 : (p ++ preRender pre ++ buildRender build).span Char.isDigit
      = (p, preRender pre ++ buildRender build) := by
    rw [List.append_assoc]
    exact span_append Char.isDigit p _ hpd hrest
  unfold matchPrereleaseVersion
  rw [h1]
  simp only [isEmpty_false_of_ne_nil M hM]
  rw [h2]
  simp only [isEmpty_false_of_ne_nil m hm]
  rw [h3]
  simp only [isEmpty_false_of_ne_nil p hp]
  cases pre with
  | none =>
    simp only [preRender, List.nil_append]
    have hnd : buildRender build = [] ∨ ∃ c r, buildRender build = c :: r ∧ ¬ c = '-' := by
      rcases hbuildHead with h | ⟨c, r, hcr, hcal, _⟩
      · exact Or.inl h
      · refine Or.inr ⟨c, r, hcr, ?_⟩
        intro he
        rw [he] at hcal
        exact absurd hcal (by decide)
    rw [preGroupOf_ne_dash _ hnd]
    simp
  | some pr =>
    have hptk := hpre pr rfl
    cases hsegs : splitCh '.' pr with
    | nil => exact absurd hsegs (by simp [splitCh])
    | cons seg1 restSegs =>
      have hprj : pr = seg1 ++ dotsRender restSegs := by
        have := joinCh_splitCh '.' pr
        rw [hsegs, joinCh_eq_head_dotsRender] at this
        exact this.symm
      have hall : ∀ x ∈ seg1 :: restSegs, ¬ x = [] ∧ ∀ c ∈ x, isAlnumHyph c = true := by
        intro x hx
        have hpid : preIdOk x = true := by
          unfold preTextOk at hptk
          rw [hsegs] at hptk
          exact List.all_eq_true.mp hptk x hx
        unfold preIdOk at hpid
        rw [Bool.and_eq_true, Bool.and_eq_true] at hpid
        refine ⟨?_, List.all_eq_true.mp hpid.1.2⟩
        intro he
        rw [he] at hpid
        simp at hpid
      obtain ⟨hseg1ne, hseg1al⟩ := hall seg1 (List.mem_cons_self _ _)
      have hrestAll : ∀ x ∈ restSegs, ¬ x = [] ∧ ∀ c ∈ x, isAlnumHyph c = true :=
        fun x hx => hall x (List.mem_cons_of_mem _ hx)
      simp only [preRender, List.cons_append]
      rw [hprj, List.append_assoc, ← List.append_assoc]
      rw [preGroupOf_render seg1 restSegs (buildRender build) hseg1ne hseg1al hrestAll hbuildHead]
      simp

/-! ### Decimal rendering yields valid numeric components -/

theorem natDigitsF_all_digit (fuel : Nat) : ∀ n c, c ∈ natDigitsF fuel n → c.isDigit = true := by
  induction fuel with
  | zero => intro n c hc; simp [natDigitsF] at hc
  | succ f ih =>
    intro n c hc
    simp only [natDigitsF] at hc
    by_cases h : n < 10
    · rw [if_pos h] at hc
      simp at hc
      subst hc
      exact digitChar_isDigit n
    · rw [if_neg h] at hc
      rcases List.mem_append.mp hc with h2 | h2
      · exact ih (n / 10) c h2
      · simp at h2
        subst h2
        exact digitChar_isDigit (n % 10)

theorem natDigitsF_ne_nil (fuel n : Nat) : ¬ natDigitsF (fuel + 1) n = [] := by
  simp only [natDigitsF]
  split
  · simp
  · simp

theorem natDigitsF_head_ne_zero (fuel : Nat) : ∀ n, 1 ≤ n → n ≤ fuel →
    ¬ (natDigitsF fuel n).head? = some '0' := by
  induction fuel with
  | zero => intro n h1 h2; omega
  | succ f ih =>
    intro n h1 h2
    simp only [natDigitsF]
    by_cases h : n < 10
    · rw [if_pos h]
      simp only [List.head?_cons]
      interval_cases n <;> decide
    · rw [if_neg h]
      cases hl : natDigitsF f (n / 10) with
      | nil =>
        exfalso
        cases f with
        | zero => omega
        | succ f2 => exact natDigitsF_ne_nil f2 (n / 10) hl
      | cons a as =>
        simp only [List.cons_append, List.head?_cons]
        have h3 := ih (n / 10) (by omega) (by omega)
        rw [hl] at h3
        simpa using h3

theorem numOk_natDigits (n : Nat) : numOk (natDigits n) = true := by
  unfold numOk
  rw [Bool.and_eq_true, Bool.and_eq_true]
  refine ⟨⟨?_, ?_⟩, ?_⟩
  · rw [isEmpty_false_of_ne_nil _ (natDigits_ne_nil n)]
    rfl
  · exact List.all_eq_true.mpr (fun c hc => natDigits_all_digit n c hc)
  · by_cases h : n < 10
    · rw [Bool.or_eq_true]
      left
      have hd : natDigits n = [digitChar n] := by
        unfold natDigits
        simp [natDigitsF, h]
      rw [hd]
      simp
    · rw [Bool.or_eq_true]
      right
      have h3 := natDigitsF_head_ne_zero (n + 1) n (by omega) (by omega)
      unfold natDigits
      simp only [Bool.not_eq_true']
      exact decide_eq_false h3

theorem preIdOk_natDigits (n : Nat) : preIdOk (natDigits n) = true := by
  unfold preIdOk
  rw [Bool.and_eq_true, Bool.and_eq_true]
  refine ⟨⟨?_, ?_⟩, ?_⟩
  · rw [isEmpty_false_of_ne_nil _ (natDigits_ne_nil n)]
    rfl
  · exact List.all_eq_true.mpr
      (fun c hc => digit_alnumHyph c (natDigits_all_digit n c hc))
  · rw [Bool.or_eq_true]
    right
    exact numOk_natDigits n

theorem dot_not_mem_natDigits (n : Nat) : '.' ∉ natDigits n := by
  intro hmem
  exact absurd (natDigits_all_digit n '.' hmem) (by decide)

/-! ### Splitting across an inserted separator -/

theorem splitChAux_append_general (sep : Char) (x y : List Char) :
    splitChAux sep (x ++ sep :: y)
      = ((splitChAux sep x).1, (splitChAux sep x).2 ++ splitCh sep y) := by
  induction x with
  | nil =>
    simp [splitChAux, splitCh]
  | cons c cs ih =>
    simp only [List.cons_append, splitChAux, List.append_eq]
    rw [ih]
    by_cases hc : c = sep
    · simp [hc, splitCh]
    · simp [hc]

theorem splitCh_append_general (sep : Char) (x y : List Char) :
    splitCh sep (x ++ sep :: y) = splitCh sep x ++ splitCh sep y := by
  simp only [splitCh, splitChAux_append_general]
  simp

theorem preTextOk_append (pr seg : List Char) (h1 : preTextOk pr = true)
    (h2 : preIdOk seg = true) (hseg : '.' ∉ seg) :
    preTextOk (pr ++ '.' :: seg) = true := by
  unfold preTextOk at h1 ⊢
  rw [splitCh_append_general, List.all_append, h1, splitCh_no_sep '.' seg hseg]
  simp [h2]

/-! ### Validity of rendered outputs -/

theorem isSemver_of_parse (l : List Char) (pts : SvParts)
    (h : parseSemverParts l = some pts) : isSemver ⟨l⟩ = true := by
  unfold isSemver
  have he : (String.mk l).toList = l := rfl
  rw [he, parse_no_v l pts h, h]
  rfl

theorem isSemver_v_of_parse (l : List Char) (pts : SvParts)
    (h : parseSemverParts l = some pts) : isSemver ⟨'v' :: l⟩ = true := by
  unfold isSemver
  have he : (String.mk ('v' :: l)).toList = 'v' :: l := rfl
  rw [he]
  have hst : stripLeadV ('v' :: l) = l := rfl
  rw [hst, h]
  rfl

theorem matchPrereleaseVersion_v (l : List Char) : matchPrereleaseVersion ('v' :: l) = none := by
  unfold matchPrereleaseVersion
  rw [List.span_eq_take_drop]
  simp [List.takeWhile_cons]

theorem preidTruthy_exists (o : Option String) (h : preidTruthy o = true) :
    ∃ p, o = some p ∧ ¬ p = "" := by
  cases o with
  | none => cases h
  | some p =>
    refine ⟨p, rfl, ?_⟩
    simpa [preidTruthy] using h

/-- Facts about the rendered tail after the numeric triple: its head (when
nonempty) is a non-digit, and it contains no newline. -/
theorem renderTail_facts (pre build : Option (List Char))
    (hpre : ∀ pr, pre = some pr → preTextOk pr = true)
    (hbuild : ∀ b, build = some b → buildTextOk b = true) :
    (preRender pre ++ buildRender build = []
      ∨ ∃ c r, preRender pre ++ buildRender build = c :: r ∧ c.isDigit = false)
    ∧ ∀ c ∈ preRender pre ++ buildRender build, (fun x => !x = '\n') c = true := by
  constructor
  · cases pre with
    | none =>
      cases build with
      | none => exact Or.inl rfl
      | some b => exact Or.inr ⟨'+', b, rfl, by decide⟩
    | some pr => exact Or.inr ⟨'-', pr ++ buildRender build, rfl, by decide⟩
  · intro c hc
    rcases List.mem_append.mp hc with h | h
    · cases pre with
      | none => simp [preRender] at h
      | some pr =>
        simp only [preRender, List.mem_cons] at h
        rcases h with rfl | h2
        · decide
        · rcases preTextOk_chars pr (hpre pr rfl) c h2 with h3 | rfl
          · simpa using (alnumHyph_ne c h3).2.2
          · decide
    · cases build with
      | none => simp [buildRender] at h
      | some b =>
        simp only [buildRender, List.mem_cons] at h
        rcases h with rfl | h2
        · decide
        · rcases buildTextOk_chars b (hbuild b rfl) c h2 with h3 | rfl
          · simpa using (alnumHyph_ne c h3).2.2
          · decide

/-! ### String-level assembly of outputs -/

theorem string_append_data (a b : String) : (a ++ b).data = a.data ++ b.data := by
  cases a
  cases b
  rfl

theorem string_ext (a b : String) (h : a.data = b.data) : a = b := by
  cases a
  cases b
  cases h
  rfl

/-- `newVersion + "-" + preid + ".0"` at the character level. -/
theorem append_dash_pid (core : List Char) (pid : String) :
    (⟨core⟩ : String) ++ "-" ++ pid ++ ".0" = ⟨core ++ '-' :: (pid.toList ++ '.' :: ['0'])⟩ := by
  apply string_ext
  simp only [string_append_data]
  simp [String.toList, List.append_assoc]

/-- Both with and without a leading `v`, a rendered numeric triple — with the
`-{preid}.0` suffix attached when the preid is truthy — passes `isSemver`,
provided the preid is a dot-separated sequence of valid prerelease
identifiers. -/
theorem isSemver_triple_out (M m p : List Char) (preid : Option String)
    (hM : numOk M = true) (hm : numOk m = true) (hp : numOk p = true)
    (hpok : ∀ pid : String, preid = some pid → ¬ pid = "" → preTextOk pid.toList = true) :
    isSemver (if preidTruthy preid
        then (⟨M ++ '.' :: m ++ '.' :: p⟩ : String) ++ "-" ++ preid.getD "" ++ ".0"
        else ⟨M ++ '.' :: m ++ '.' :: p⟩) = true
    ∧ isSemver (if preidTruthy preid
        then (⟨'v' :: (M ++ '.' :: m ++ '.' :: p)⟩ : String) ++ "-" ++ preid.getD "" ++ ".0"
        else ⟨'v' :: (M ++ '.' :: m ++ '.' :: p)⟩) = true := by
  by_cases hpt : preidTruthy preid = true
  · obtain ⟨pid, hpe, hpne⟩ := preidTruthy_exists preid hpt
    subst hpe
    have hnewPre : preTextOk (pid.toList ++ '.' :: ['0']) = true :=
      preTextOk_append pid.toList ['0'] (hpok pid rfl hpne) (by decide) (by decide)
    have hparse := parse_render M m p (some (pid.toList ++ '.' :: ['0'])) none hM hm hp
      (fun pr hpr => by injection hpr with h2; rw [← h2]; exact hnewPre)
      (fun b hb => by cases hb)
    have hshape : M ++ '.' :: m ++ '.' :: p ++ preRender (some (pid.toList ++ '.' :: ['0']))
        ++ buildRender none
        = (M ++ '.' :: m ++ '.' :: p) ++ '-' :: (pid.toList ++ '.' :: ['0']) := by
      simp [preRender, buildRender, List.append_assoc]
    rw [hshape] at hparse
    rw [if_pos hpt, if_pos hpt]
    constructor
    · rw [append_dash_pid]
      exact isSemver_of_parse _ _ hparse
    · have hv : (⟨'v' :: (M ++ '.' :: m ++ '.' :: p)⟩ : String) ++ "-" ++ (some pid).getD "" ++ ".0"
          = ⟨'v' :: ((M ++ '.' :: m ++ '.' :: p) ++ '-' :: (pid.toList ++ '.' :: ['0']))⟩ := by
        rw [append_dash_pid]
        apply string_ext
        simp
      rw [hv]
      exact isSemver_v_of_parse _ _ hparse
  · rw [if_neg hpt, if_neg hpt]
    have hparse := parse_render M m p none none hM hm hp
      (fun _ h => by cases h) (fun _ h => by cases h)
    have hshape : M ++ '.' :: m ++ '.' :: p ++ preRender none ++ buildRender none
        = M ++ '.' :: m ++ '.' :: p := by
      simp [preRender, buildRender]
    rw [hshape] at hparse
    exact ⟨isSemver_of_parse _ _ hparse, isSemver_v_of_parse _ _ hparse⟩

/-! ### Scan behaviour of the date pass -/

theorem replaceDatesAuxF_cons (d : List Char) (f : Nat) (atStart : Bool) (c : Char)
    (cs : List Char) :
    replaceDatesAuxF d (f+1) atStart (c :: cs)
      = match tryDate atStart (c :: cs) with
        | some (p1, p2, rest) => p1 ++ d ++ (p2 ++ replaceDatesAuxF d f false rest)
        | none => c :: replaceDatesAuxF d f false cs := rfl

theorem no4Run_tail (c : Char) (l : List Char) (h : no4Run (c :: l) = true) :
    no4Run l = true := by
  match l with
  | [] => rfl
  | [x] => rfl
  | [x, y] => rfl
  | x :: y :: z :: rest =>
    unfold no4Run at h
    rw [Bool.and_eq_true] at h
    exact h.2

theorem no4Run_head (c1 c2 c3 c4 : Char) (rest : List Char)
    (h : no4Run (c1 :: c2 :: c3 :: c4 :: rest) = true) :
    (c1.isDigit && c2.isDigit && c3.isDigit && c4.isDigit) = false := by
  unfold no4Run at h
  rw [Bool.and_eq_true] at h
  have h1 := h.1
  rwa [Bool.not_eq_true'] at h1

theorem dateChunkAt_some (l r : List Char) (h : dateChunkAt l = some r) :
    ∃ d1 d2 d3 d4 d5 d6 d7 d8,
      l = d1 :: d2 :: d3 :: d4 :: '-' :: d5 :: d6 :: '-' :: d7 :: d8 :: r
      ∧ (d1.isDigit && d2.isDigit && d3.isDigit && d4.isDigit) = true := by
  unfold dateChunkAt at h
  split at h
  · rename_i d1 d2 d3 d4 d5 d6 d7 d8 rest
    split at h
    · rename_i hd
      injection h with h2
      subst h2
      refine ⟨d1, d2, d3, d4, d5, d6, d7, d8, rfl, ?_⟩
      simp only [Bool.and_eq_true] at hd
      simp [hd.1.1.1.1.1.1.1, hd.1.1.1.1.1.1.2, hd.1.1.1.1.1.2, hd.1.1.1.1.2]
    · cases h
  · cases h

theorem isDateChunk_facts (w : List Char) (h : isDateChunk w = true) :
    ∃ d1 d2 d3 d4 d5 d6 d7 d8,
      w = [d1, d2, d3, d4, '-', d5, d6, '-', d7, d8]
      ∧ (d1.isDigit && d2.isDigit && d3.isDigit && d4.isDigit &&
         d5.isDigit && d6.isDigit && d7.isDigit && d8.isDigit) = true := by
  unfold isDateChunk at h
  split at h
  · rename_i d1 d2 d3 d4 d5 d6 d7 d8
    exact ⟨d1, d2, d3, d4, d5, d6, d7, d8, rfl, h⟩
  · cases h

theorem dateChunkAt_chunk (w t : List Char) (h : isDateChunk w = true) :
    dateChunkAt (w ++ t) = some t := by
  obtain ⟨d1, d2, d3, d4, d5, d6, d7, d8, rfl, hd⟩ := isDateChunk_facts w h
  rw [show ([d1, d2, d3, d4, '-', d5, d6, '-', d7, d8] : List Char) ++ t
      = d1 :: d2 :: d3 :: d4 :: '-' :: d5 :: d6 :: '-' :: d7 :: d8 :: t from rfl]
  rw [show dateChunkAt (d1 :: d2 :: d3 :: d4 :: '-' :: d5 :: d6 :: '-' :: d7 :: d8 :: t)
      = if d1.isDigit && d2.isDigit && d3.isDigit && d4.isDigit &&
           d5.isDigit && d6.isDigit && d7.isDigit && d8.isDigit then some t else none from rfl]
  rw [if_pos hd]

theorem dateChunkAt_none_of (u t : List Char) (hu : ¬ u = [])
    (h4 : no4Run u = true)
    (hlast : ∀ c, u.getLast? = some c → c.isDigit = false) :
    dateChunkAt (u ++ t) = none := by
  cases h : dateChunkAt (u ++ t) with
  | none => rfl
  | some r =>
    exfalso
    obtain ⟨d1, d2, d3, d4, d5, d6, d7, d8, heq, hd⟩ := dateChunkAt_some _ _ h
    simp only [Bool.and_eq_true] at hd
    rcases u with _ | ⟨a1, _ | ⟨a2, _ | ⟨a3, _ | ⟨a4, u5⟩⟩⟩⟩
    · exact hu rfl
    · simp only [List.cons_append, List.nil_append, List.cons.injEq] at heq
      have hnd := hlast a1 (by rfl)
      rw [heq.1] at hnd
      rw [hd.1.1.1] at hnd
      cases hnd
    · simp only [List.cons_append, List.nil_append, List.cons.injEq] at heq
      have hnd := hlast a2 (by rfl)
      rw [heq.2.1] at hnd
      rw [hd.1.1.2] at hnd
      cases hnd
    · simp only [List.cons_append, List.nil_append, List.cons.injEq] at heq
      have hnd := hlast a3 (by rfl)
      rw [heq.2.2.1] at hnd
      rw [hd.1.2] at hnd
      cases hnd
    · simp only [List.cons_append, List.cons.injEq] at heq
      obtain ⟨rfl, rfl, rfl, rfl, -⟩ := heq
      have hfalse := no4Run_head a1 a2 a3 a4 u5 h4
      rw [hd.1.1.1, hd.1.1.2, hd.1.2, hd.2] at hfalse
      exact absurd hfalse (by decide)

theorem tryDateTail_take_drop (b : List Char)
    (hb : b = [] ∨ ∃ c r, b = c :: r ∧ c.isDigit = false) :
    tryDateTail b = some (b.take 1, b.drop 1) := by
  rcases hb with rfl | ⟨c, r, rfl, hc⟩
  · rfl
  · unfold tryDateTail
    simp [hc]

theorem tryDate_boundary_cons (atStart : Bool) (x : Char) (w b : List Char)
    (hx : x.isDigit = false) (hw : isDateChunk w = true)
    (hb : b = [] ∨ ∃ c r, b = c :: r ∧ c.isDigit = false) :
    tryDate atStart (x :: (w ++ b)) = some ([x], b.take 1, b.drop 1) := by
  unfold tryDate
  simp only [hx, Bool.not_false, if_true, dateChunkAt_chunk w b hw,
    tryDateTail_take_drop b hb, Option.map_some']

theorem tryDate_boundary_start (w b : List Char)
    (hw : isDateChunk w = true)
    (hb : b = [] ∨ ∃ c r, b = c :: r ∧ c.isDigit = false) :
    tryDate true (w ++ b) = some ([], b.take 1, b.drop 1) := by
  obtain ⟨d1, d2, d3, d4, d5, d6, d7, d8, hwe, hd⟩ := isDateChunk_facts w hw
  have hd1 : d1.isDigit = true := by
    simp only [Bool.and_eq_true] at hd
    exact hd.1.1.1.1.1.1.1
  have hcons : w ++ b = d1 :: ([d2, d3, d4, '-', d5, d6, '-', d7, d8] ++ b) := by
    rw [hwe]
    rfl
  unfold tryDate
  rw [hcons]
  simp only [hd1, Bool.not_true, if_false]
  rw [← hcons, dateChunkAt_chunk w b hw]
  simp [tryDateTail_take_drop b hb]

theorem tryDate_none_of_no4Run (s : List Char) (h : no4Run s = true) :
    tryDate false s = none := by
  unfold tryDate
  cases s with
  | nil => rfl
  | cons c cs =>
    have hdc : dateChunkAt cs = none := by
      cases h2 : dateChunkAt cs with
      | none => rfl
      | some r =>
        exfalso
        obtain ⟨d1, d2, d3, d4, d5, d6, d7, d8, heq, hd⟩ := dateChunkAt_some _ _ h2
        have h4 : no4Run cs = true := no4Run_tail c cs h
        rw [heq] at h4
        have hfalse := no4Run_head d1 d2 d3 d4 _ h4
        rw [hfalse] at hd
        cases hd
    cases hc : c.isDigit with
    | true => simp [hc]
    | false => simp [hc, hdc]

theorem tryDate_none_long (atStart : Bool) (x y : Char) (ys t : List Char)
    (h4 : no4Run (x :: y :: ys) = true)
    (hlast : ∀ c, (x :: y :: ys).getLast? = some c → c.isDigit = false) :
    tryDate atStart (x :: ((y :: ys) ++ t)) = none := by
  have h4t : no4Run (y :: ys) = true := no4Run_tail x _ h4
  have hlast2 : ∀ c, (y :: ys).getLast? = some c → c.isDigit = false := by
    intro c hc
    apply hlast
    rw [List.getLast?_cons_cons]
    exact hc
  have hdc : dateChunkAt (y :: (ys ++ t)) = none := by
    have h2 := dateChunkAt_none_of (y :: ys) t (by simp) h4t hlast2
    simpa using h2
  have hdc2 : dateChunkAt (x :: y :: (ys ++ t)) = none := by
    have h2 := dateChunkAt_none_of (x :: y :: ys) t (by simp) h4 hlast
    simpa using h2
  unfold tryDate
  cases hx : x.isDigit <;> cases atStart <;> simp [hx, hdc, hdc2]

theorem replaceDatesAux_nomatch (d : List Char) :
    ∀ (fuel : Nat) (s : List Char), no4Run s = true →
      replaceDatesAuxF d fuel false s = s := by
  intro fuel
  induction fuel with
  | zero => intro s _; rfl
  | succ f ih =>
    intro s hs
    cases s with
    | nil => rfl
    | cons c cs =>
      rw [replaceDatesAuxF_cons, tryDate_none_of_no4Run _ hs]
      show c :: replaceDatesAuxF d f false cs = c :: cs
      rw [ih cs (no4Run_tail c cs hs)]

theorem replaceDatesAux_skip (d w b : List Char) (hw : isDateChunk w = true)
    (hb4 : no4Run b = true)
    (hbhead : b = [] ∨ ∃ c r, b = c :: r ∧ c.isDigit = false) :
    ∀ (a : List Char) (fuel : Nat) (atStart : Bool),
      no4Run a = true →
      (a = [] → atStart = true) →
      (∀ c, a.getLast? = some c → c.isDigit = false) →
      a.length + 1 ≤ fuel →
      replaceDatesAuxF d fuel atStart (a ++ (w ++ b)) = a ++ (d ++ b) := by
  have hb4d : no4Run (b.drop 1) = true := by
    cases b with
    | nil => rfl
    | cons c r => exact no4Run_tail c r hb4
  intro a
  induction a with
  | nil =>
    intro fuel atStart _ hstart _ hfuel
    have hT : atStart = true := hstart rfl
    subst hT
    cases fuel with
    | zero => exact absurd hfuel (by simp)
    | succ f =>
      simp only [List.nil_append]
      obtain ⟨d1, d2, d3, d4, d5, d6, d7, d8, hwe, -⟩ := isDateChunk_facts w hw
      have hcons : w ++ b = d1 :: ([d2, d3, d4, '-', d5, d6, '-', d7, d8] ++ b) := by
        rw [hwe]
        rfl
      rw [hcons, replaceDatesAuxF_cons, ← hcons, tryDate_boundary_start w b hw hbhead]
      show [] ++ d ++ (b.take 1 ++ replaceDatesAuxF d f false (b.drop 1)) = d ++ b
      rw [replaceDatesAux_nomatch d f (b.drop 1) hb4d]
      cases b <;> simp
  | cons x xs ih =>
    intro fuel atStart h4 _ hlast hfuel
    cases fuel with
    | zero => exact absurd hfuel (by simp)
    | succ f =>
      rw [List.cons_append, replaceDatesAuxF_cons]
      cases xs with
      | nil =>
        have hx : x.isDigit = false := hlast x (by rfl)
        rw [show ([] : List Char) ++ (w ++ b) = w ++ b from rfl]
        rw [tryDate_boundary_cons atStart x w b hx hw hbhead]
        show [x] ++ d ++ (b.take 1 ++ replaceDatesAuxF d f false (b.drop 1)) = [x] ++ (d ++ b)
        rw [replaceDatesAux_nomatch d f (b.drop 1) hb4d]
        cases b <;> simp
      | cons y ys =>
        rw [tryDate_none_long atStart x y ys (w ++ b) h4 hlast]
        show x :: replaceDatesAuxF d f false ((y :: ys) ++ (w ++ b))
          = (x :: y :: ys) ++ (d ++ b)
        rw [ih f false (no4Run_tail x _ h4) (fun h => absurd h (List.cons_ne_nil y ys))
          (fun c hc => hlast c (by rw [List.getLast?_cons_cons]; exact hc))
          (by simp at hfuel ⊢; omega)]
        rfl

/-! ### The package.json version-field frame property -/

theorem isPrefixOf_append_self (l t : List Char) : l.isPrefixOf (l ++ t) = true := by
  induction l with
  | nil => cases t <;> rfl
  | cons a as ih => simp [List.isPrefixOf, ih]

theorem findQuoteBase_gap (base : List Char) :
    ∀ (gap post : List Char), '"' ∉ gap →
      findQuoteBase base (gap ++ '"' :: (base ++ '"' :: post)) = some (gap, post) := by
  intro gap
  induction gap with
  | nil =>
    intro post hgap
    have hpref : (base ++ ['"']).isPrefixOf (base ++ '"' :: post) = true := by
      simpa [List.append_assoc] using isPrefixOf_append_self (base ++ ['"']) post
    have hdrop : (base ++ '"' :: post).drop (base.length + 1) = post := by
      simpa [List.append_assoc] using List.drop_left (base ++ ['"']) post
    unfold findQuoteBase
    simp [hpref, hdrop]
  | cons g gs ih =>
    intro post hgap
    have hg : ¬ g = '"' := fun he => hgap (he ▸ List.mem_cons_self g gs)
    unfold findQuoteBase
    simp only [List.cons_append]
    simp [hg, ih post (fun hm => hgap (List.mem_cons_of_mem g hm))]

theorem replacePkgJson_cons (base new : List Char) (c : Char) (cs : List Char) :
    replacePkgJson base new (c :: cs)
      = if qVersionKey.isPrefixOf (c :: cs) then
          match findQuoteBase base ((c :: cs).drop qVersionKey.length) with
          | some (gap, rest) => qVersionKey ++ gap ++ '"' :: (new ++ '"' :: rest)
          | none => c :: replacePkgJson base new cs
        else c :: replacePkgJson base new cs := rfl

theorem replacePkgJson_no_key (base new : List Char) :
    ∀ (pre t : List Char),
      (∀ i, i < pre.length → ¬ qVersionKey.isPrefixOf ((pre ++ t).drop i) = true) →
      replacePkgJson base new (pre ++ t) = pre ++ replacePkgJson base new t := by
  intro pre
  induction pre with
  | nil => intro t _; rfl
  | cons c cs ih =>
    intro t hno
    simp only [List.cons_append]
    rw [replacePkgJson_cons]
    rw [if_neg (by simpa [List.drop_zero] using hno 0 (by simp))]
    rw [ih t (fun i hi => by simpa [List.drop_succ_cons] using hno (i+1) (by simp; omega))]

theorem replacePkgJson_key (base new gap post : List Char) (hgap : '"' ∉ gap) :
    replacePkgJson base new (qVersionKey ++ (gap ++ '"' :: (base ++ '"' :: post)))
      = qVersionKey ++ (gap ++ '"' :: (new ++ '"' :: post)) := by
  have hkey : qVersionKey.isPrefixOf
      ('"' :: ("version\":".toList ++ (gap ++ '"' :: (base ++ '"' :: post)))) = true :=
    isPrefixOf_append_self qVersionKey (gap ++ '"' :: (base ++ '"' :: post))
  have hdrop : ('"' :: ("version\":".toList ++ (gap ++ '"' :: (base ++ '"' :: post)))).drop
      qVersionKey.length = gap ++ '"' :: (base ++ '"' :: post) :=
    List.drop_left qVersionKey (gap ++ '"' :: (base ++ '"' :: post))
  have hfind := findQuoteBase_gap base gap post hgap
  show replacePkgJson base new
      ('"' :: ("version\":".toList ++ (gap ++ '"' :: (base ++ '"' :: post)))) = _
  rw [replacePkgJson_cons, if_pos hkey, hdrop, hfind]
  simp [List.append_assoc]

/-! ## Claim theorems -/

theorem resolve_finalize (inp : ResolveInput) (s : String)
    (hbase : inp.argsBase = none)
    (hsem : isSemver s = true)
    (hsrc : resolveBaseVersion.resolveFromSources inp = .ok ⟨stripLeadV s.toList⟩) :
    resolveBaseVersion inp = .ok ⟨stripLeadV s.toList⟩ := by
  unfold resolveBaseVersion
  rw [hbase]
  simp only []
  rw [hsrc]
  simp only []
  cases hpts : parseSemverParts (stripLeadV s.toList) with
  | none =>
    unfold isSemver at hsem
    rw [hpts] at hsem
    cases hsem
  | some pts => exact finalize_stripped s pts hpts

/-- The two root-level updates of `mutateLockfile`, as a case split: either
only the top-level `version` assignment happened (or nothing), or
additionally the root package entry's version was assigned. -/
theorem mutateLockfile_result (j : Json) (v : String) :
    mutateLockfile j v
      = (if jsTruthyOpt (getMember j "version") then setMember j "version" (Json.str v) else j)
    ∨ ∃ pkgs root, getMember j "packages" = some pkgs ∧ getMember pkgs "" = some root
        ∧ jsTruthyOpt (getMember root "version") = true
        ∧ mutateLockfile j v
          = setMember (if jsTruthyOpt (getMember j "version")
              then setMember j "version" (Json.str v) else j)
            "packages" (setMember pkgs "" (setMember root "version" (Json.str v))) := by
  unfold mutateLockfile
  simp only []
  cases hp : getMember (if jsTruthyOpt (getMember j "version")
      then setMember j "version" (Json.str v) else j) "packages" with
  | none => simp only []; exact Or.inl trivial
  | some pkgs =>
    simp only []
    cases hr : getMember pkgs "" with
    | none => simp only []; exact Or.inl trivial
    | some root =>
      simp only []
      cases ht : jsTruthyOpt (getMember root "version") with
      | false => rw [if_neg (by simp)]; exact Or.inl rfl
      | true =>
        rw [if_pos rfl]
        right
        refine ⟨pkgs, root, ?_, hr, ht, rfl⟩
        rw [← hp]
        exact (mutateLockfile_j1_other j v "packages" (by decide)).symm

theorem jsTruthyOpt_some (o : Option Json) (h : jsTruthyOpt o = true) : ∃ x, o = some x := by
  cases o with
  | none => cases h
  | some x => exact ⟨x, rfl⟩

/-- C6: mutating `package-lock.json` is done on the parsed JSON document and
changes only the root-level version fields: the branch re-serializes the
mutated document with a trailing newline; every top-level member other than
`version`/`packages` is untouched; every entry of `packages` other than the
root entry `""` — in particular every nested dependency, whatever its
version string — is untouched; and inside the root entry only its `version`
member changes. -/
theorem claim6_lockfile_root_only :
    (∀ (tn : String → Option String) (fs : FS) (path old base new : String) (lockFile : Json),
      basename path = "package-lock.json" →
      parseJson old = .ok lockFile →
      substituteVersion tn fs path old base new
        = .ok (stringifyJson (mutateLockfile lockFile new) ++ "\n"))
    ∧ (∀ (j : Json) (v k : String), ¬ k = "version" → ¬ k = "packages" →
      getMember (mutateLockfile j v) k = getMember j k)
    ∧ (∀ (j : Json) (v : String) (pkgs pkgs2 : Json) (pk : String), ¬ pk = "" →
      getMember j "packages" = some pkgs →
      getMember (mutateLockfile j v) "packages" = some pkgs2 →
      getMember pkgs2 pk = getMember pkgs pk)
    ∧ (∀ (j : Json) (v : String) (pkgs pkgs2 root root2 : Json) (k : String), ¬ k = "version" →
      getMember j "packages" = some pkgs →
      getMember (mutateLockfile j v) "packages" = some pkgs2 →
      getMember pkgs "" = some root → getMember pkgs2 "" = some root2 →
      getMember root2 k = getMember root k) := by
  refine ⟨?_, ?_, ?_, ?_⟩
  · intro tn fs path old base new lockFile hbase hparse
    unfold substituteVersion
    rw [hbase]
    rw [if_neg (by decide), if_pos rfl, hparse]
  · intro j v k hkv hkp
    rcases mutateLockfile_result j v with h | ⟨pkgs, root, hjp, hr, ht, h⟩
    · rw [h]
      exact mutateLockfile_j1_other j v k hkv
    · rw [h, getMember_setMember_other _ "packages" k _ hkp]
      exact mutateLockfile_j1_other j v k hkv
  · intro j v pkgs pkgs2 pk hpk hjp hmp
    rcases mutateLockfile_result j v with h | ⟨pkgs', root, hjp', hr, ht, h⟩
    · rw [h, mutateLockfile_j1_other j v "packages" (by decide), hjp] at hmp
      cases hmp
      rfl
    · rw [hjp] at hjp'
      cases hjp'
      have hj1p : getMember (if jsTruthyOpt (getMember j "version")
          then setMember j "version" (Json.str v) else j) "packages" = some pkgs := by
        rw [mutateLockfile_j1_other j v "packages" (by decide)]
        exact hjp
      obtain ⟨ms, hms⟩ := getMember_some_obj _ "packages" pkgs hj1p
      rw [h, hms, getMember_setMember_self ms "packages" _] at hmp
      cases hmp
      obtain ⟨pms, rfl⟩ := getMember_some_obj _ "" root hr
      exact getMember_setMember_other _ "" pk _ hpk
  · intro j v pkgs pkgs2 root root2 k hkv hjp hmp hroot hroot2
    rcases mutateLockfile_result j v with h | ⟨pkgs', root', hjp', hr, ht, h⟩
    · rw [h, mutateLockfile_j1_other j v "packages" (by decide), hjp] at hmp
      cases hmp
      rw [hroot] at hroot2
      cases hroot2
      rfl
    · rw [hjp] at hjp'
      cases hjp'
      have hj1p : getMember (if jsTruthyOpt (getMember j "version")
          then setMember j "version" (Json.str v) else j) "packages" = some pkgs := by
        rw [mutateLockfile_j1_other j v "packages" (by decide)]
        exact hjp
      obtain ⟨ms, hms⟩ := getMember_some_obj _ "packages" pkgs hj1p
      rw [h, hms, getMember_setMember_self ms "packages" _] at hmp
      cases hmp
      rw [hr] at hroot
      cases hroot
      obtain ⟨pms, rfl⟩ := getMember_some_obj _ "" _ hr
      rw [getMember_setMember_self pms "" _] at hroot2
      cases hroot2
      obtain ⟨x, hx⟩ := jsTruthyOpt_some _ ht
      obtain ⟨rms, rfl⟩ := getMember_some_obj _ "version" x hx
      exact getMember_setMember_other _ "version" k _ hkv

theorem claim6_witness :
    (substituteVersion (fun _ => none) [] "package-lock.json"
      "\x7b\"version\": \"1.0.0\", \"packages\": \x7b\"\": \x7b\"version\": \"1.0.0\"\x7d, \"node_modules/foo\": \x7b\"version\": \"1.0.0\"\x7d\x7d\x7d"
      "1.0.0" "2.0.0"
      = .ok (stringifyJson (mutateLockfile
          (.obj [("version", .str "1.0.0"),
            ("packages", .obj [("", .obj [("version", .str "1.0.0")]),
              ("node_modules/foo", .obj [("version", .str "1.0.0")])])]) "2.0.0") ++ "\n"))
    ∧ (getMember (mutateLockfile
          (.obj [("version", .str "1.0.0"),
            ("packages", .obj [("", .obj [("version", .str "1.0.0")]),
              ("node_modules/foo", .obj [("version", .str "1.0.0")])])]) "2.0.0") "name"
        = getMember (Json.obj [("version", .str "1.0.0"),
            ("packages", .obj [("", .obj [("version", .str "1.0.0")]),
              ("node_modules/foo", .obj [("version", .str "1.0.0")])])]) "name")
    ∧ (getMember (Json.obj [("", .obj [("version", .str "2.0.0")]),
          ("node_modules/foo", .obj [("version", .str "1.0.0")])]) "node_modules/foo"
        = getMember (Json.obj [("", .obj [("version", .str "1.0.0")]),
          ("node_modules/foo", .obj [("version", .str "1.0.0")])]) "node_modules/foo")
    ∧ (getMember (Json.obj [("version", .str "2.0.0")]) "dev"
        = getMember (Json.obj [("version", .str "1.0.0")]) "dev") := by
  refine ⟨?_, ?_, ?_, ?_⟩
  · exact claim6_lockfile_root_only.1 (fun _ => none) [] "package-lock.json"
      "\x7b\"version\": \"1.0.0\", \"packages\": \x7b\"\": \x7b\"version\": \"1.0.0\"\x7d, \"node_modules/foo\": \x7b\"version\": \"1.0.0\"\x7d\x7d\x7d"
      "1.0.0" "2.0.0" _ (by decide) (by rfl)
  · exact claim6_lockfile_root_only.2.1 _ "2.0.0" "name" (by decide) (by decide)
  · exact claim6_lockfile_root_only.2.2.1
      (.obj [("version", .str "1.0.0"),
        ("packages", .obj [("", .obj [("version", .str "1.0.0")]),
          ("node_modules/foo", .obj [("version", .str "1.0.0")])])]) "2.0.0"
      _ _ "node_modules/foo" (by decide) (by rfl) (by rfl)
  · exact claim6_lockfile_root_only.2.2.2
      (.obj [("version", .str "1.0.0"),
        ("packages", .obj [("", .obj [("version", .str "1.0.0")]),
          ("node_modules/foo", .obj [("version", .str "1.0.0")])])]) "2.0.0"
      _ _ _ _ "dev" (by decide) (by rfl) (by rfl) (by rfl) (by rfl)

/-- C8: with no explicit base and no usable git tag, resolution errors in
gitless mode when neither `package.json` nor `pyproject.toml` yields a
version, and defaults to `"0.0.0"` otherwise. -/
theorem claim8_gitless_fail_else_default (inp : ResolveInput)
    (hbase : inp.argsBase = none)
    (hpkg : readVersionFromPackageJson inp.pkgJson = none)
    (hpy : readVersionFromPyprojectToml inp.pyVals = none)
    (htags : ∀ t ∈ inp.tagLines, isSemver (jsTrim t) = false) :
    (inp.gitless = true →
      resolveBaseVersion inp
        = .error "--gitless requires --base to be set or a version in package.json or pyproject.toml")
    ∧ (inp.gitless = false → resolveBaseVersion inp = .ok "0.0.0") := by
  have hft := firstSemverTag_empty inp.tagLines htags
  constructor <;> intro hg
  · unfold resolveBaseVersion resolveBaseVersion.resolveFromSources
    rw [hbase]
    simp [hg, hft, hpkg, hpy, Option.orElse]
  · unfold resolveBaseVersion resolveBaseVersion.resolveFromSources
    rw [hbase]
    simp [hg, hft, hpkg, hpy, Option.orElse]
    have h00 : isSemver ({ data := stripLeadV ['0', '.', '0', '.', '0'] } : String) = true := by
      decide
    rw [h00]
    simp
    rfl

theorem readPkg_valid (pkg : Json) (s : String)
    (hmem : getMember pkg "version" = some (.str s)) (hs : ¬ s = "")
    (hsem : isSemver s = true) :
    readVersionFromPackageJson (some pkg) = some ⟨stripLeadV s.toList⟩ := by
  unfold readVersionFromPackageJson
  simp only []
  rw [hmem]
  simp only []
  rw [if_pos ⟨hs, hsem⟩]

theorem readPkg_invalid (pkg : Json) (s : String)
    (hmem : getMember pkg "version" = some (.str s)) (hsem : isSemver s = false) :
    readVersionFromPackageJson (some pkg) = none := by
  unfold readVersionFromPackageJson
  simp only []
  rw [hmem]
  simp only []
  rw [if_neg (by simp [hsem])]

theorem readPy_project_valid (pv2 : Option Json) (t : String)
    (ht : ¬ t = "") (hsem : isSemver t = true) :
    readVersionFromPyprojectToml (some (some (.str t), pv2)) = some ⟨stripLeadV t.toList⟩ := by
  unfold readVersionFromPyprojectToml
  simp only []
  rw [if_pos ⟨ht, hsem⟩]

theorem readPy_poetry_valid (t2 : String)
    (ht : ¬ t2 = "") (hsem : isSemver t2 = true) :
    readVersionFromPyprojectToml (some (none, some (.str t2))) = some ⟨stripLeadV t2.toList⟩ := by
  unfold readVersionFromPyprojectToml poetryVersionCheck
  simp only []
  rw [if_pos ⟨ht, hsem⟩]

theorem claim8_witness :
    (true = true →
      resolveBaseVersion ⟨none, true, ["main"], none, none⟩
        = .error "--gitless requires --base to be set or a version in package.json or pyproject.toml")
    ∧ (true = false → resolveBaseVersion ⟨none, true, ["main"], none, none⟩ = .ok "0.0.0") :=
  claim8_gitless_fail_else_default ⟨none, true, ["main"], none, none⟩
    rfl rfl rfl (by decide)

/-- C3: with no explicit base and no usable git tag, `package.json` is read
before `pyproject.toml`: a valid `package.json` version wins outright; a
present-but-invalid `package.json` version is skipped (not fatal) so a valid
`pyproject.toml` version is used; and within `pyproject.toml`,
`project.version` is probed before `tool.poetry.version`. -/
theorem claim3_resolution_precedence (inp : ResolveInput)
    (hbase : inp.argsBase = none)
    (htags : ∀ t ∈ inp.tagLines, isSemver (jsTrim t) = false) :
    (∀ pkg s, inp.pkgJson = some pkg → getMember pkg "version" = some (.str s) →
      ¬ s = "" → isSemver s = true → resolveBaseVersion inp = .ok ⟨stripLeadV s.toList⟩)
    ∧ (∀ pkg s pv2 t, inp.pkgJson = some pkg → getMember pkg "version" = some (.str s) →
      isSemver s = false →
      inp.pyVals = some (some (.str t), pv2) → ¬ t = "" → isSemver t = true →
      resolveBaseVersion inp = .ok ⟨stripLeadV t.toList⟩)
    ∧ (∀ t1 t2, readVersionFromPackageJson inp.pkgJson = none →
      inp.pyVals = some (some (.str t1), some (.str t2)) →
      ¬ t1 = "" → isSemver t1 = true →
      resolveBaseVersion inp = .ok ⟨stripLeadV t1.toList⟩)
    ∧ (∀ t2, readVersionFromPackageJson inp.pkgJson = none →
      inp.pyVals = some (none, some (.str t2)) → ¬ t2 = "" → isSemver t2 = true →
      resolveBaseVersion inp = .ok ⟨stripLeadV t2.toList⟩) := by
  have hft := firstSemverTag_empty inp.tagLines htags
  have hfromTag : (if inp.gitless then "" else firstSemverTag inp.tagLines) = "" := by
    cases inp.gitless <;> simp [hft]
  refine ⟨?_, ?_, ?_, ?_⟩
  · intro pkg s hpkgj hmem hs hsem
    apply resolve_finalize inp s hbase hsem
    have hr : readVersionFromPackageJson inp.pkgJson = some ⟨stripLeadV s.toList⟩ := by
      rw [hpkgj]
      exact readPkg_valid pkg s hmem hs hsem
    unfold resolveBaseVersion.resolveFromSources
    simp [hfromTag, hr, Option.orElse]
  · intro pkg s pv2 t hpkgj hmem hsemf hpyv ht hsemt
    apply resolve_finalize inp t hbase hsemt
    have hr : readVersionFromPackageJson inp.pkgJson = none := by
      rw [hpkgj]
      exact readPkg_invalid pkg s hmem hsemf
    have hr2 : readVersionFromPyprojectToml inp.pyVals = some ⟨stripLeadV t.toList⟩ := by
      rw [hpyv]
      exact readPy_project_valid pv2 t ht hsemt
    unfold resolveBaseVersion.resolveFromSources
    simp [hfromTag, hr, hr2, Option.orElse]
  · intro t1 t2 hr hpyv ht1 hsem1
    apply resolve_finalize inp t1 hbase hsem1
    have hr2 : readVersionFromPyprojectToml inp.pyVals = some ⟨stripLeadV t1.toList⟩ := by
      rw [hpyv]
      exact readPy_project_valid (some (.str t2)) t1 ht1 hsem1
    unfold resolveBaseVersion.resolveFromSources
    simp [hfromTag, hr, hr2, Option.orElse]
  · intro t2 hr hpyv ht2 hsem2
    apply resolve_finalize inp t2 hbase hsem2
    have hr2 : readVersionFromPyprojectToml inp.pyVals = some ⟨stripLeadV t2.toList⟩ := by
      rw [hpyv]
      exact readPy_poetry_valid t2 ht2 hsem2
    unfold resolveBaseVersion.resolveFromSources
    simp [hfromTag, hr, hr2, Option.orElse]

theorem claim3_witness :
    resolveBaseVersion ⟨none, true, [],
        some (.obj [("name", .str "x"), ("version", .str "2.5.0")]),
        some (some (.str "3.0.0"), some (.str "4.0.0"))⟩
      = .ok ⟨stripLeadV "2.5.0".toList⟩
    ∧ resolveBaseVersion ⟨none, true, [],
        some (.obj [("version", .str "invalid")]),
        some (some (.str "3.0.0"), some (.str "4.0.0"))⟩
      = .ok ⟨stripLeadV "3.0.0".toList⟩
    ∧ resolveBaseVersion ⟨none, true, [], none,
        some (none, some (.str "4.0.0"))⟩
      = .ok ⟨stripLeadV "4.0.0".toList⟩ := by
  refine ⟨?_, ?_, ?_⟩
  · exact (claim3_resolution_precedence _ rfl (by decide)).1
      _ "2.5.0" rfl (by rfl) (by decide) (by decide)
  · exact (claim3_resolution_precedence _ rfl (by decide)).2.1
      _ "invalid" _ "3.0.0" rfl (by rfl) (by decide) rfl (by decide) (by decide)
  · exact (claim3_resolution_precedence _ rfl (by decide)).2.2.2
      "4.0.0" rfl rfl (by decide) (by decide)


/-- C1: the claim states that incrementing at patch/minor/major with no
preid carries an existing prerelease/build suffix over verbatim, and that
bumping `"1.0.0-pre-1.0.0"` at patch level yields `"1.0.1-pre-1.0.0"`.  The
source contradicts this: the replacement callbacks of the major, minor and
patch branches (lines 54, 58, 62) omit the final capture group, so the
matched suffix is consumed and dropped — patch on `"1.0.0-pre-1.0.0"`
returns `"1.0.1"`.  The repository's own test suite asserts the
suffix-preserving behaviour for `incrementSemver` (index.test.ts lines
53–58), as does the dead fallback at line 92 and every earlier revision of
the function, so the code, not the claim, is at fault. -/
theorem claim1_code_drops_suffix :
    incrementSemver "1.0.0-pre-1.0.0" .patch none = .ok "1.0.1"
    ∧ incrementSemver "1.0.0-pre-1.0.0" .minor none = .ok "1.1.0"
    ∧ incrementSemver "1.0.0-pre-1.0.0" .major none = .ok "2.0.0"
    ∧ ¬ ("1.0.1" : String) = "1.0.1-pre-1.0.0" := by
  refine ⟨by rfl, by rfl, by rfl, by decide⟩

/-- C10 counterexample: the claim quantifies over "any supplied preid", but
`incrementSemver` performs no validation of the preid, so a preid containing
characters outside `[0-9a-zA-Z-]` produces a string `isSemver` rejects:
`"1.0.0"` at level prerelease with preid `"_"` returns `"1.0.1-_.0"`, which
`isSemver` does not accept. -/
theorem claim10_counterexample :
    isSemver "1.0.0" = true
    ∧ incrementSemver "1.0.0" .prerelease (some "_") = .ok "1.0.1-_.0"
    ∧ isSemver "1.0.1-_.0" = false := by
  refine ⟨by decide, by rfl, by decide⟩

/-- C7 counterexample: the `package.json` regex
`("version":[^]*?")base(")` pairs the first `"version":` key with the first
following `"base"` text.  When the version field's own value differs from the
base version, the lazy gap extends across it and the regex rewrites a later
occurrence of the base version — here a nested dependency value — so
"no other occurrence of the base-version string is changed" fails: starting
from `{"version": "2.0.0", "d": {"x": "1.0.0"}}` with base `1.0.0`, the
dependency value is rewritten to `9.9.9` while the version field keeps
`2.0.0`. -/
theorem claim7_counterexample :
    substituteVersion (fun _ => none) [] "package.json"
      "\x7b\"version\": \"2.0.0\", \"d\": \x7b\"x\": \"1.0.0\"\x7d\x7d" "1.0.0" "9.9.9"
      = .ok "\x7b\"version\": \"2.0.0\", \"d\": \x7b\"x\": \"9.9.9\"\x7d\x7d"
    ∧ ¬ ("\x7b\"version\": \"2.0.0\", \"d\": \x7b\"x\": \"9.9.9\"\x7d\x7d" : String)
        = "\x7b\"version\": \"2.0.0\", \"d\": \x7b\"x\": \"1.0.0\"\x7d\x7d" := by
  refine ⟨by rfl, by decide⟩

/-- C9 counterexample: the claim says every `YYYY-MM-DD` substring bounded
by non-digits (or the string boundaries) is replaced, but each match of the
global date regex consumes its trailing boundary character, so of two dates
separated by a single non-digit only the first is replaced: in
`"1.0.0 2020-01-01 2020-01-02"` the second date is bounded by a space and
the end of the string, yet survives the date pass. -/
theorem claim9_counterexample :
    computeContent (fun _ => none) []
      ⟨"CHANGELOG.md", "1.0.0", "1.0.1", [], "2026-10-12"⟩ "1.0.0 2020-01-01 2020-01-02"
      = .ok "1.0.1 2026-10-12 2020-01-02"
    ∧ ¬ ("1.0.1 2026-10-12 2020-01-02" : String) = "1.0.1 2026-10-12 2026-10-12" := by
  refine ⟨by rfl, by decide⟩

theorem getFileChanges_eq (tn : String → Option String) (fs : FS)
    (o : GetFileChangesOpts) (old : String) (hread : readFS fs o.file = .ok old) :
    getFileChanges tn fs o
      = match computeContent tn fs o old with
        | .error e => .error e
        | .ok newData =>
          if old = newData then .error (noChangeMsg o) else .ok (o.file, newData) := by
  unfold getFileChanges
  rw [hread]

/-- C5: the mutation step fails with the "no change" error whenever the
computed new content is byte-identical to the old content, and never
succeeds without producing a change: whenever `getFileChanges` succeeds its
returned content differs from the file's old content. -/
theorem claim5_no_change_guard (tn : String → Option String) (fs : FS)
    (o : GetFileChangesOpts) (old : String) (hread : readFS fs o.file = .ok old) :
    (computeContent tn fs o old = .ok old → getFileChanges tn fs o = .error (noChangeMsg o))
    ∧ (∀ f nd, getFileChanges tn fs o = .ok (f, nd) → ¬ nd = old) := by
  rw [getFileChanges_eq tn fs o old hread]
  constructor
  · intro hcomp
    rw [hcomp]
    simp
  · intro f nd hok
    cases hcomp : computeContent tn fs o old with
    | error e => rw [hcomp] at hok; cases hok
    | ok newData =>
      rw [hcomp] at hok
      simp only [] at hok
      by_cases heq : old = newData
      · rw [if_pos heq] at hok; cases hok
      · rw [if_neg heq] at hok
        cases hok
        exact fun h => heq h.symm

theorem claim5_witness :
    (computeContent (fun _ => none) [("a.txt", "nothing here")]
        ⟨"a.txt", "1.0.0", "1.0.1", [], ""⟩ "nothing here" = .ok "nothing here" →
      getFileChanges (fun _ => none) [("a.txt", "nothing here")]
        ⟨"a.txt", "1.0.0", "1.0.1", [], ""⟩
        = .error (noChangeMsg ⟨"a.txt", "1.0.0", "1.0.1", [], ""⟩))
    ∧ (∀ f nd, getFileChanges (fun _ => none) [("a.txt", "nothing here")]
        ⟨"a.txt", "1.0.0", "1.0.1", [], ""⟩ = .ok (f, nd) → ¬ nd = "nothing here") :=
  claim5_no_change_guard (fun _ => none) [("a.txt", "nothing here")]
    ⟨"a.txt", "1.0.0", "1.0.1", [], ""⟩ "nothing here" (by rfl)

/-- C4: all target contents are computed by `getFileChanges` before any file
is written, so if the computation fails for any single target — the
no-change safety error included — the run fails with the filesystem exactly
as it started. -/
theorem claim4_two_phase (tn : String → Option String) (fs : FS) (files : List String)
    (base new : String) (repls : List (String → String)) (date : String)
    (f : String) (e : String) (hf : f ∈ files)
    (herr : getFileChanges tn fs ⟨f, base, new, repls, date⟩ = .error e) :
    (runUpdateFiles tn fs files base new repls date).1 = fs
    ∧ ∃ e2, (runUpdateFiles tn fs files base new repls date).2 = .error e2 := by
  have hne : ¬ files.isEmpty := by
    cases files with
    | nil => cases hf
    | cons a as => simp
  unfold runUpdateFiles
  rw [if_neg hne]
  cases hstat : seqMap (readFS fs) files with
  | error e1 => exact ⟨rfl, e1, rfl⟩
  | ok _ =>
    cases hmap : seqMap (fun f => getFileChanges tn fs ⟨f, base, new, repls, date⟩) files with
    | error e1 => exact ⟨rfl, e1, rfl⟩
    | ok todo =>
      obtain ⟨y, hy⟩ := seqMap_ok_mem _ files todo hmap f hf
      rw [herr] at hy
      cases hy

theorem claim4_witness :
    (runUpdateFiles (fun _ => none) [("a.txt", "v 1.0.0"), ("b.txt", "nope")]
        ["a.txt", "b.txt"] "1.0.0" "1.0.1" [] "").1
      = [("a.txt", "v 1.0.0"), ("b.txt", "nope")]
    ∧ ∃ e2, (runUpdateFiles (fun _ => none) [("a.txt", "v 1.0.0"), ("b.txt", "nope")]
        ["a.txt", "b.txt"] "1.0.0" "1.0.1" [] "").2 = .error e2 :=
  claim4_two_phase (fun _ => none) [("a.txt", "v 1.0.0"), ("b.txt", "nope")]
    ["a.txt", "b.txt"] "1.0.0" "1.0.1" [] ""
    "b.txt" (noChangeMsg ⟨"b.txt", "1.0.0", "1.0.1", [], ""⟩)
    (by decide) (by rfl)

/-- C2 (amended): for level `prerelease`, `incrementSemver` errors when no
(or an empty) preid is supplied; given a truthy preid and an input whose own
text matches the semver grammar (a `v`-prefixed input passes `isSemver` but
makes the function throw, since `rePrereleaseVersion` is `^`-anchored — see
the counterexample): with no prerelease suffix and the patch numeral below
`2 ^ 53` (so JS float arithmetic is exact and renders in plain decimal),
the patch component is incremented and `-{preid}.0` is attached; with a
suffix of the exact form `{identifier}.{integer}`, the identifier equal to
the preid and the counter below `2 ^ 53`, the trailing counter is
incremented and the triple is unchanged; otherwise the suffix is replaced
by `-{preid}.0` with the triple unchanged. -/
theorem claim2_prerelease_semantics (str : String) (pts : SvParts)
    (hpts : parseSemverParts str.toList = some pts) :
    (incrementSemver str .prerelease none = .error "prerelease requires --preid option"
      ∧ incrementSemver str .prerelease (some "") = .error "prerelease requires --preid option")
    ∧ ∀ pid : String, ¬ pid = "" →
        (pts.pre = none → digitsToNat pts.p < 2 ^ 53 →
          incrementSemver str .prerelease (some pid)
            = .ok ⟨pts.M ++ '.' :: pts.m ++ '.' :: natDigits (digitsToNat pts.p + 1)
                ++ '-' :: pid.toList ++ ".0".toList⟩)
        ∧ (∀ pr ident n, pts.pre = some pr →
            matchPreIdNum pr = some (ident, n) → ident = pid.toList →
            digitsToNat n < 2 ^ 53 →
            incrementSemver str .prerelease (some pid)
              = .ok ⟨pts.M ++ '.' :: pts.m ++ '.' :: pts.p
                  ++ '-' :: pid.toList ++ '.' :: natDigits (digitsToNat n + 1)⟩)
        ∧ (∀ pr, pts.pre = some pr →
            (matchPreIdNum pr = none
              ∨ ∃ ident n, matchPreIdNum pr = some (ident, n) ∧ ¬ ident = pid.toList) →
            incrementSemver str .prerelease (some pid)
              = .ok ⟨pts.M ++ '.' :: pts.m ++ '.' :: pts.p
                  ++ '-' :: pid.toList ++ ".0".toList⟩) := by
  obtain ⟨hl, hM, hm, hp, hpre, hbuild⟩ := parse_decomp str.toList pts hpts
  obtain ⟨hMne, hMd⟩ := numOk_facts pts.M hM
  obtain ⟨hmne, hmd⟩ := numOk_facts pts.m hm
  obtain ⟨hpne, hpd⟩ := numOk_facts pts.p hp
  have hsem : isSemver str = true := by
    unfold isSemver
    rw [parse_no_v str.toList pts hpts, hpts]
    rfl
  have hmp : matchPrereleaseVersion str.toList = some (pts.M, pts.m, pts.p, pts.pre) := by
    have hl2 : str.toList
        = pts.M ++ '.' :: (pts.m ++ '.' :: (pts.p ++ preRender pts.pre
            ++ buildRender pts.build)) := by
      rw [hl]
      simp [List.append_assoc]
    rw [hl2]
    exact matchPrerelease_render pts.M pts.m pts.p pts.pre pts.build
      hMne hMd hmne hmd hpne hpd hpre hbuild
  refine ⟨⟨?_, ?_⟩, ?_⟩
  · unfold incrementSemver
    rw [hsem]
    simp [preidTruthy]
  · unfold incrementSemver
    rw [hsem]
    simp [preidTruthy]
  · intro pid hpid
    have hpidt : preidTruthy (some pid) = true := by
      simp [preidTruthy, hpid]
    refine ⟨?_, ?_, ?_⟩
    · intro hnone _
      unfold incrementSemver
      rw [hsem]
      simp only [hpidt]
      rw [hmp, hnone]
      simp
    · intro pr ident n hsome hmi hident _
      unfold incrementSemver
      rw [hsem]
      simp only [hpidt]
      rw [hmp, hsome]
      simp only [Option.getD]
      rw [hmi]
      simp only []
      rw [hident, if_pos rfl]
      simp
    · intro pr hsome hmi
      unfold incrementSemver
      rw [hsem]
      simp only [hpidt]
      rw [hmp, hsome]
      simp only [Option.getD]
      rcases hmi with hmi | ⟨ident, n, hmi, hne⟩
      · rw [hmi]
        simp
      · rw [hmi]
        simp only []
        simp
        exact fun h => absurd h hne

/-- C2 counterexample: the claim's enumerated behaviour fails on
`v`-prefixed inputs, which `isSemver` (and hence the CLI's validation)
accepts: `rePrereleaseVersion` is anchored at the start of the unstripped
string, so the prerelease branch throws `Invalid semver` instead of
incrementing. -/
theorem claim2_counterexample :
    isSemver "v1.0.0" = true
    ∧ incrementSemver "v1.0.0" .prerelease (some "alpha")
        = .error "Invalid semver: v1.0.0" :=
  ⟨by rfl, by rfl⟩

theorem claim2_witness :
    ((incrementSemver "1.2.3-alpha.4" .prerelease none
        = .error "prerelease requires --preid option")
      ∧ incrementSemver "1.2.3-alpha.4" .prerelease (some "")
        = .error "prerelease requires --preid option")
    ∧ incrementSemver "1.2.3-alpha.4" .prerelease (some "alpha") = .ok "1.2.3-alpha.5" := by
  have h := claim2_prerelease_semantics "1.2.3-alpha.4"
    ⟨['1'], ['2'], ['3'], some ['a','l','p','h','a','.','4'], none⟩ (by rfl)
  refine ⟨h.1, ?_⟩
  have h2 := (h.2 "alpha" (by decide)).2.1 ['a','l','p','h','a','.','4']
    ['a','l','p','h','a'] ['4'] rfl (by rfl) (by rfl) (by decide)
  exact h2.trans (by rfl)

/-- C10 (amended): for every `isSemver`-accepted input string whose numeric
components — the triple and, when present, the prerelease counter — parse
below `2 ^ 53` (in that range JS float arithmetic is exact and integers
render in plain decimal, so `digitsToNat`/`natDigits` coincide with JS
`Number`; an accepted input such as `"1000000000000000000000.0.0"` is
rendered exponentially by the real code and the result rejected) and every
increment level, whenever `incrementSemver` returns a string (at level
`prerelease` it throws for `v`-prefixed input) and the supplied preid —
when truthy — is a dot-separated sequence of valid semver prerelease
identifiers, the returned string is itself accepted by `isSemver`. -/
theorem claim10_increment_valid (s : String) (pts : SvParts) (level : SemverLevel)
    (preid : Option String) (t : String)
    (hpts : parseSemverParts (stripLeadV s.toList) = some pts)
    (hM53 : digitsToNat pts.M < 2 ^ 53)
    (hm53 : digitsToNat pts.m < 2 ^ 53)
    (hp53 : digitsToNat pts.p < 2 ^ 53)
    (hn53 : ∀ pr ident n, pts.pre = some pr → matchPreIdNum pr = some (ident, n) →
      digitsToNat n < 2 ^ 53)
    (hpok : ∀ pid : String, preid = some pid → ¬ pid = "" → preTextOk pid.toList = true)
    (hok : incrementSemver s level preid = .ok t) :
    isSemver t = true := by
  have hs : isSemver s = true := by
    unfold isSemver
    rw [hpts]
    rfl
  obtain ⟨hl, hM, hm, hp, hpreT, hbuildT⟩ := parse_decomp _ pts hpts
  obtain ⟨hMne, hMd⟩ := numOk_facts pts.M hM
  obtain ⟨hmne, hmd⟩ := numOk_facts pts.m hm
  obtain ⟨hpne, hpd⟩ := numOk_facts pts.p hp
  obtain ⟨htailHead, htailNl⟩ := renderTail_facts pts.pre pts.build hpreT hbuildT
  have hsplit : (∃ r, s.toList = 'v' :: r ∧ stripLeadV s.toList = r)
      ∨ stripLeadV s.toList = s.toList := by
    cases hl0 : s.toList with
    | nil => right; rfl
    | cons c r =>
      by_cases hc : c = 'v'
      · subst hc
        left
        exact ⟨r, rfl, rfl⟩
      · right
        apply stripLeadV_of_not_v
        intro r2 he
        injection he with h1 _
        exact hc h1
  have hstripn : stripLeadV s.toList
      = pts.M ++ '.' :: (pts.m ++ '.' :: (pts.p
          ++ (preRender pts.pre ++ buildRender pts.build))) := by
    rw [hl]
    simp [List.append_assoc]
  have hrepl : ∀ frepl : List Char → List Char → List Char → List Char → List Char,
      replaceTripleOnce frepl s.toList
        = frepl pts.M pts.m pts.p (preRender pts.pre ++ buildRender pts.build)
      ∨ replaceTripleOnce frepl s.toList
        = 'v' :: frepl pts.M pts.m pts.p (preRender pts.pre ++ buildRender pts.build) := by
    intro frepl
    have h2 : replaceTripleOnce frepl (stripLeadV s.toList)
        = frepl pts.M pts.m pts.p (preRender pts.pre ++ buildRender pts.build) := by
      rw [hstripn]
      exact replaceTripleOnce_render frepl pts.M pts.m pts.p _ hMne hMd hmne hmd hpne hpd
        htailHead htailNl
    rcases hsplit with ⟨r, hsl, hstrip⟩ | hstrip
    · right
      rw [hstrip] at h2
      rw [hsl, replaceTripleOnce_v, h2]
    · left
      rw [hstrip] at h2
      exact h2
  cases level with
  | major =>
    unfold incrementSemver at hok
    rw [hs] at hok
    rw [if_neg (by simp)] at hok
    simp only [] at hok
    injection hok with ht
    subst ht
    have hsh : natDigits (digitsToNat pts.M + 1) ++ (".0.0" : String).toList
        = natDigits (digitsToNat pts.M + 1) ++ '.' :: ['0'] ++ '.' :: ['0'] := by
      rw [show (".0.0" : String).toList = ['.', '0', '.', '0'] from rfl]
      simp [List.append_assoc]
    rcases hrepl (fun m1 _ _ _ => natDigits (digitsToNat m1 + 1) ++ ".0.0".toList)
        with hR | hR
    · rw [hR]
      simp only [hsh]
      exact (isSemver_triple_out (natDigits (digitsToNat pts.M + 1)) ['0'] ['0'] preid
        (numOk_natDigits _) (by decide) (by decide) hpok).1
    · rw [hR]
      simp only [hsh]
      exact (isSemver_triple_out (natDigits (digitsToNat pts.M + 1)) ['0'] ['0'] preid
        (numOk_natDigits _) (by decide) (by decide) hpok).2
  | minor =>
    unfold incrementSemver at hok
    rw [hs] at hok
    rw [if_neg (by simp)] at hok
    simp only [] at hok
    injection hok with ht
    subst ht
    have hsh : pts.M ++ '.' :: (natDigits (digitsToNat pts.m + 1) ++ (".0" : String).toList)
        = pts.M ++ '.' :: natDigits (digitsToNat pts.m + 1) ++ '.' :: ['0'] := by
      rw [show (".0" : String).toList = ['.', '0'] from rfl]
      simp [List.append_assoc]
    rcases hrepl (fun m1 m2 _ _ => m1 ++ '.' :: (natDigits (digitsToNat m2 + 1) ++ ".0".toList))
        with hR | hR
    · rw [hR]
      simp only [hsh]
      exact (isSemver_triple_out pts.M (natDigits (digitsToNat pts.m + 1)) ['0'] preid
        hM (numOk_natDigits _) (by decide) hpok).1
    · rw [hR]
      simp only [hsh]
      exact (isSemver_triple_out pts.M (natDigits (digitsToNat pts.m + 1)) ['0'] preid
        hM (numOk_natDigits _) (by decide) hpok).2
  | patch =>
    unfold incrementSemver at hok
    rw [hs] at hok
    rw [if_neg (by simp)] at hok
    simp only [] at hok
    injection hok with ht
    subst ht
    rcases hrepl (fun m1 m2 m3 _ => m1 ++ '.' :: m2 ++ '.' :: natDigits (digitsToNat m3 + 1))
        with hR | hR
    · rw [hR]
      exact (isSemver_triple_out pts.M pts.m (natDigits (digitsToNat pts.p + 1)) preid
        hM hm (numOk_natDigits _) hpok).1
    · rw [hR]
      exact (isSemver_triple_out pts.M pts.m (natDigits (digitsToNat pts.p + 1)) preid
        hM hm (numOk_natDigits _) hpok).2
  | prerelease =>
    unfold incrementSemver at hok
    rw [hs] at hok
    rw [if_neg (by simp)] at hok
    simp only [] at hok
    by_cases hpt : preidTruthy preid = true
    · rw [if_neg (by simp [hpt])] at hok
      obtain ⟨pid, hpe, hpne2⟩ := preidTruthy_exists preid hpt
      subst hpe
      simp only [Option.getD_some] at hok
      rcases hsplit with ⟨r, hsl, hstrip⟩ | hstrip
      · rw [hsl, matchPrereleaseVersion_v] at hok
        simp only [] at hok
        cases hok
      · have hstripn2 : s.toList
            = pts.M ++ '.' :: (pts.m ++ '.' :: (pts.p ++ preRender pts.pre
                ++ buildRender pts.build)) := by
          rw [← hstrip, hl]
          simp [List.append_assoc]
        have hmp : matchPrereleaseVersion s.toList
            = some (pts.M, pts.m, pts.p, pts.pre) := by
          rw [hstripn2]
          exact matchPrerelease_render pts.M pts.m pts.p pts.pre pts.build
            hMne hMd hmne hmd hpne hpd hpreT hbuildT
        rw [hmp] at hok
        simp only [] at hok
        have hnew0 : preTextOk (pid.toList ++ '.' :: ['0']) = true :=
          preTextOk_append pid.toList ['0'] (hpok pid rfl hpne2) (by decide) (by decide)
        have hdot0 : isSemver ⟨pts.M ++ '.' :: pts.m ++ '.' :: pts.p ++ '-' :: pid.toList
            ++ (".0" : String).toList⟩ = true := by
          have hparse := parse_render pts.M pts.m pts.p (some (pid.toList ++ '.' :: ['0'])) none
            hM hm hp
            (fun pr2 hpr => by injection hpr with h2; rw [← h2]; exact hnew0)
            (fun b hb => by cases hb)
          have hshape : pts.M ++ '.' :: pts.m ++ '.' :: pts.p
              ++ preRender (some (pid.toList ++ '.' :: ['0'])) ++ buildRender none
              = pts.M ++ '.' :: pts.m ++ '.' :: pts.p ++ '-' :: pid.toList
                ++ (".0" : String).toList := by
            rw [show (".0" : String).toList = ['.', '0'] from rfl]
            simp [preRender, buildRender, List.append_assoc]
          rw [hshape] at hparse
          exact isSemver_of_parse _ _ hparse
        cases hpre0 : pts.pre with
        | none =>
          rw [hpre0] at hok
          simp only [] at hok
          injection hok with ht
          subst ht
          have hparse := parse_render pts.M pts.m (natDigits (digitsToNat pts.p + 1))
            (some (pid.toList ++ '.' :: ['0'])) none hM hm (numOk_natDigits _)
            (fun pr2 hpr => by injection hpr with h2; rw [← h2]; exact hnew0)
            (fun b hb => by cases hb)
          have hshape : pts.M ++ '.' :: pts.m ++ '.' :: natDigits (digitsToNat pts.p + 1)
              ++ preRender (some (pid.toList ++ '.' :: ['0'])) ++ buildRender none
              = pts.M ++ '.' :: pts.m ++ '.' :: natDigits (digitsToNat pts.p + 1)
                ++ '-' :: pid.toList ++ (".0" : String).toList := by
            rw [show (".0" : String).toList = ['.', '0'] from rfl]
            simp [preRender, buildRender, List.append_assoc]
          rw [hshape] at hparse
          exact isSemver_of_parse _ _ hparse
        | some pr =>
          rw [hpre0] at hok
          simp only [] at hok
          cases hmi : matchPreIdNum pr with
          | some idn =>
            obtain ⟨ident, n⟩ := idn
            rw [hmi] at hok
            simp only [] at hok
            by_cases hi : ident = pid.toList
            · rw [if_pos hi] at hok
              injection hok with ht
              subst ht
              have hnewPre : preTextOk (pid.toList ++ '.' :: natDigits (digitsToNat n + 1))
                  = true :=
                preTextOk_append pid.toList _ (hpok pid rfl hpne2) (preIdOk_natDigits _)
                  (dot_not_mem_natDigits _)
              have hparse := parse_render pts.M pts.m pts.p
                (some (pid.toList ++ '.' :: natDigits (digitsToNat n + 1))) none hM hm hp
                (fun pr2 hpr => by injection hpr with h2; rw [← h2]; exact hnewPre)
                (fun b hb => by cases hb)
              have hshape : pts.M ++ '.' :: pts.m ++ '.' :: pts.p
                  ++ preRender (some (pid.toList ++ '.' :: natDigits (digitsToNat n + 1)))
                  ++ buildRender none
                  = pts.M ++ '.' :: pts.m ++ '.' :: pts.p
                    ++ '-' :: pid.toList ++ '.' :: natDigits (digitsToNat n + 1) := by
                simp [preRender, buildRender, List.append_assoc]
              rw [hshape] at hparse
              exact isSemver_of_parse _ _ hparse
            · rw [if_neg hi] at hok
              injection hok with ht
              subst ht
              exact hdot0
          | none =>
            rw [hmi] at hok
            simp only [] at hok
            injection hok with ht
            subst ht
            exact hdot0
    · rw [if_pos hpt] at hok
      cases hok

theorem claim10_witness :
    isSemver "1.2.3-alpha.4+b.5" = true
    ∧ incrementSemver "1.2.3-alpha.4+b.5" .prerelease (some "alpha") = .ok "1.2.3-alpha.5"
    ∧ isSemver "1.2.3-alpha.5" = true := by
  refine ⟨by rfl, by rfl, ?_⟩
  exact claim10_increment_valid "1.2.3-alpha.4+b.5"
    ⟨['1'], ['2'], ['3'], some ['a','l','p','h','a','.','4'], some ['b','.','5']⟩
    .prerelease (some "alpha") "1.2.3-alpha.5"
    (by rfl) (by decide) (by decide) (by decide)
    (fun pr ident n hpr hmi => by
      injection hpr with h
      subst h
      rw [show matchPreIdNum ['a','l','p','h','a','.','4']
          = some (['a','l','p','h','a'], ['4']) from rfl] at hmi
      injection hmi with h2
      injection h2 with h3 h4
      subst h3
      subst h4
      decide)
    (fun pid hp hne => by injection hp with h; subst h; decide)
    (by rfl)

/-- C9 (amended): with date stamping enabled, the content pipeline applies
the date pass after the version substitution and before the caller-supplied
rules, which are then applied in the order given; the date pass rewrites a
`YYYY-MM-DD` chunk whose neighbours are non-digits and whose surrounding
text contains no four consecutive digits to the supplied date, leaving the
surroundings intact (the counterexample shows a second date whose leading
boundary was consumed by the previous match is kept). -/
theorem claim9_date_pass (tn : String → Option String) (fs : FS) (o : GetFileChangesOpts)
    (old subst : String) (hdate : ¬ o.date = "")
    (hsub : substituteVersion tn fs o.file old o.baseVersion o.newVersion = .ok subst) :
    computeContent tn fs o old
      = .ok (o.replacements.foldl (fun s r => r s) (replaceDates o.date subst))
    ∧ (∀ a w b, subst.toList = a ++ (w ++ b) → isDateChunk w = true →
        no4Run a = true → no4Run b = true →
        (a = [] ∨ ∃ c, a.getLast? = some c ∧ c.isDigit = false) →
        (b = [] ∨ ∃ c r, b = c :: r ∧ c.isDigit = false) →
        replaceDates o.date subst = ⟨a ++ (o.date.toList ++ b)⟩) := by
  constructor
  · unfold computeContent
    rw [hsub]
    simp only []
    rw [if_pos hdate]
  · intro a w b hdecomp hw ha4 hb4 halast hbhead
    unfold replaceDates
    rw [hdecomp]
    have hlast : ∀ c, a.getLast? = some c → c.isDigit = false := by
      rcases halast with rfl | ⟨c, hc, hcd⟩
      · intro c hc
        cases hc
      · intro c2 hc2
        rw [hc] at hc2
        injection hc2 with h2
        rw [← h2]
        exact hcd
    rw [replaceDatesAux_skip o.date.toList w b hw hb4 hbhead a
      ((a ++ (w ++ b)).length + 1) true ha4 (fun _ => rfl) hlast (by simp)]

theorem claim9_witness :
    substituteVersion (fun _ => none) [] "f" "x 1.0.0 y 2020-01-01 z" "1.0.0" "2.0.0"
      = .ok "x 2.0.0 y 2020-01-01 z"
    ∧ computeContent (fun _ => none) []
        ⟨"f", "1.0.0", "2.0.0", [], "2024-05-06"⟩ "x 1.0.0 y 2020-01-01 z"
      = .ok (replaceDates "2024-05-06" "x 2.0.0 y 2020-01-01 z")
    ∧ replaceDates "2024-05-06" "x 2.0.0 y 2020-01-01 z" = "x 2.0.0 y 2024-05-06 z" := by
  have h := claim9_date_pass (fun _ => none) [] ⟨"f", "1.0.0", "2.0.0", [], "2024-05-06"⟩
    "x 1.0.0 y 2020-01-01 z" "x 2.0.0 y 2020-01-01 z" (by decide) (by rfl)
  refine ⟨by rfl, h.1, ?_⟩
  have h2 := h.2 "x 2.0.0 y ".toList "2020-01-01".toList " z".toList (by decide) (by decide)
    (by decide) (by decide)
    (Or.inr ⟨' ', by decide, by decide⟩)
    (Or.inr ⟨' ', ['z'], by decide, by decide⟩)
  exact h2.trans (by decide)

/-- C7 (amended): when the first occurrence of the literal `"version":` in a
package.json file is followed — with no intervening double quote — by the
quoted base version, the substitution rewrites exactly that quoted value and
leaves every other byte of the file, later occurrences of the base version
included, unchanged (the counterexample shows that when the version field's
value differs from the base version, the lazy gap of the regex reaches a
later occurrence and a dependency entry is rewritten instead). -/
theorem claim7_version_field_frame (tn : String → Option String) (fs : FS)
    (base new : String) (pre gap post : List Char)
    (hpre : ∀ i, i < pre.length →
      ¬ qVersionKey.isPrefixOf
        ((pre ++ (qVersionKey ++ (gap ++ '"' :: (base.toList ++ '"' :: post)))).drop i) = true)
    (hgap : '"' ∉ gap) :
    substituteVersion tn fs "package.json"
        ⟨pre ++ (qVersionKey ++ (gap ++ '"' :: (base.toList ++ '"' :: post)))⟩ base new
      = .ok ⟨pre ++ (qVersionKey ++ (gap ++ '"' :: (new.toList ++ '"' :: post)))⟩ := by
  unfold substituteVersion
  simp only []
  rw [if_pos (show basename "package.json" = "package.json" from by rfl)]
  have hl : (String.mk (pre ++ (qVersionKey ++ (gap ++ '"' :: (base.toList ++ '"' :: post))))).toList
      = pre ++ (qVersionKey ++ (gap ++ '"' :: (base.toList ++ '"' :: post))) := rfl
  rw [hl]
  rw [replacePkgJson_no_key base.toList new.toList pre _ hpre]
  rw [replacePkgJson_key base.toList new.toList gap post hgap]

theorem claim7_frame_witness :
    substituteVersion (fun _ => none) [] "package.json"
        ⟨"\x7b".toList ++ (qVersionKey ++ (" ".toList
          ++ '"' :: ("1.0.0".toList ++ '"' :: ", \"d\": \"1.0.0\"\x7d".toList)))⟩
        "1.0.0" "9.9.9"
      = .ok ⟨"\x7b".toList ++ (qVersionKey ++ (" ".toList
          ++ '"' :: ("9.9.9".toList ++ '"' :: ", \"d\": \"1.0.0\"\x7d".toList)))⟩ :=
  claim7_version_field_frame (fun _ => none) [] "1.0.0" "9.9.9" "\x7b".toList " ".toList
    ", \"d\": \"1.0.0\"\x7d".toList (by decide) (by decide)

end Versions
